import Mathlib

/-!
# Verification of the PushWorld planner core

This file gives a shallow embedding, in Lean 4, of the core of the
`google-deepmind/pushworld` C++ planner, together with theorems that settle a
list of claims about the natural-language specification of the repository.

Overview of the embedding (each definition's doc comment names the C++
function it embeds):

* positions are `Int` values, encoded as `x * 10000 + y`
  (`pushworld_puzzle.cc`: `xy_to_position` / `position_to_xy`);
* a `State` is a `List Position`, one position per object, the agent first;
* the collision tables of `ObjectCollisions` are embedded as functions from
  action and object indices to the list of member positions of each
  `unordered_set` in the C++ struct (only membership and enumeration of these
  frozen sets are ever used by the code);
* the transition function `getNextState` (`pushworld_puzzle.cc`) is embedded
  with an explicit work-list whose termination is proved by well-founded
  recursion;
* the best-first search driver (`best_first_search.h`, `search.cc`) is
  embedded with explicit fuel for its outer loop and is parametrised by the
  frontier-selection policy, covering every priority-queue tie-breaking
  behaviour of the C++ `PriorityQueue` implementations;
* the novelty heuristic (`novelty.cc`), the domain-transition-graph builder
  (`domain_transition_graph.cc`) and the recursive-graph-distance heuristic
  (`recursive_graph_distance.cc`) are embedded as executable functions over
  the same data model.
-/

namespace PushWorld

/-- `Position2D` from `pushworld_puzzle.h`: a 2-D grid coordinate packed into a
single integer (`int` in C++). All positions arising in puzzles are small, so
the C++ `int` never overflows and `Int` is a faithful model. -/
abbrev Position := Int

/-- `POSITION_LIMIT` from `pushworld_puzzle.h`. -/
def POSITION_LIMIT : Int := 10000

/-- `xy_to_position` from `pushworld_puzzle.cc`:
`return x * POSITION_LIMIT + y;`. -/
def xy_to_position (x y : Int) : Position := x * POSITION_LIMIT + y

/-- `position_to_xy` from `pushworld_puzzle.cc`:
`x = p / POSITION_LIMIT; y = p % POSITION_LIMIT;`.
The C++ `/` and `%` truncate toward zero; the header documents that this
function is only used on non-negative coordinates, where truncating and
Euclidean division agree, so Lean's `Int` division is a faithful model on the
domain of use. -/
def position_to_xy (p : Position) : Int × Int := (p / POSITION_LIMIT, p % POSITION_LIMIT)

/-- `ACTION_DISPLACEMENTS` from `pushworld_puzzle.h`: displacements of the
actions `LEFT, RIGHT, UP, DOWN` (in that order), already encoded as
positions. -/
def ACTION_DISPLACEMENTS : List Position :=
  [xy_to_position (-1) 0, xy_to_position 1 0, xy_to_position 0 (-1), xy_to_position 0 1]

/-- `Action` from `pushworld_puzzle.h` is a plain `int` ranging over
`LEFT = 0, RIGHT = 1, UP = 2, DOWN = 3`. -/
abbrev Action := ℕ

/-- `NUM_ACTIONS` from `pushworld_puzzle.h`. -/
def NUM_ACTIONS : ℕ := 4

/-- The displacement of an action: `ACTION_DISPLACEMENTS[action]`. -/
def actionDisplacement (a : Action) : Position := ACTION_DISPLACEMENTS.getD a 0

/-- A `State` from `pushworld_puzzle.h`: the vector of the positions of all
objects, the agent at index 0. -/
abbrev State := List Position

/-- `RelativeState` from `pushworld_puzzle.h`. -/
structure RelativeState where
  state : State
  moved_object_indices : List ℕ
  deriving Repr, DecidableEq

/-- A `Plan` from `pushworld_puzzle.h`: a sequence of actions. -/
abbrev Plan := List Action

/-- The width computed by the `.pwp` loader (`PushWorldPuzzle::PushWorldPuzzle`
in `pushworld_puzzle.cc`): after the parsing loop, `x == cols + 1` where
`cols` is the number of cells per row, and the loader sets
`width = x + 1`, accounting for the implicit perimeter walls. -/
def loaderWidth (cols : ℕ) : ℕ := cols + 2

/-- The height computed by the `.pwp` loader: after the parsing loop,
`y == rows`, and the loader sets `height = y + 2`. -/
def loaderHeight (rows : ℕ) : ℕ := rows + 2

/-- The size check of the `.pwp` loader (`pushworld_puzzle.cc`, constructor):
`if (width >= POSITION_LIMIT || height >= POSITION_LIMIT) throw ...`.
Returns `true` when the board of `rows` rows and `cols` columns is accepted
by this check. -/
def loaderAcceptsSize (rows cols : ℕ) : Bool :=
  !(decide ((loaderWidth cols : Int) ≥ POSITION_LIMIT) ||
    decide ((loaderHeight rows : Int) ≥ POSITION_LIMIT))

end PushWorld

namespace PushWorld

/-- `ObjectCollisions` from `pushworld_puzzle.h`. Each `unordered_set` of the
C++ struct is embedded as the list of its member positions (the code only ever
tests membership in these sets and enumerates them; they are frozen after
construction).

* `static_collisions a i` is the set of positions of object `i` from which
  performing action `a` collides with a static obstacle;
* `dynamic_collisions a i j` is the set of relative positions
  `pos(i) - pos(j)` from which moving object `i` by action `a` pushes
  object `j`. -/
structure ObjectCollisions where
  static_collisions : Action → ℕ → List Position
  dynamic_collisions : Action → ℕ → ℕ → List Position

/-- `PushWorldPuzzle` (second constructor, `pushworld_puzzle.cc`): an initial
state, a goal, and the frozen collision tables. `m_num_objects` is
`initial_state.size()`. -/
structure PushWorldPuzzle where
  initial_state : State
  goal : List Position
  collisions : ObjectCollisions

/-- `m_num_objects` of `PushWorldPuzzle`. -/
def PushWorldPuzzle.numObjects (P : PushWorldPuzzle) : ℕ := P.initial_state.length

/-- One pass of the obstacle loop in `PushWorldPuzzle::getNextState`
(`pushworld_puzzle.cc`): the frontier object `o` scans the obstacle indices
`qs` in order; an unpushed obstacle `q` with
`state[o] - state[q] ∈ dynamic_collisions[action][o][q]` is pushed by `o`.
If such a `q` additionally has `state[q]` in its own static collision set the
whole action aborts (`none`, transitive stopping); otherwise `q` is marked
pushed and collected (in scan order) for the frontier. -/
def scanObstacles (P : PushWorldPuzzle) (s : State) (a : Action) (o : ℕ) :
    List ℕ → Finset ℕ → Option (List ℕ × Finset ℕ)
  | [], pushed => some ([], pushed)
  | q :: qs, pushed =>
    if q ∈ pushed then scanObstacles P s a o qs pushed
    else if (P.collisions.dynamic_collisions a o q).contains (s.getD o 0 - s.getD q 0) then
      if (P.collisions.static_collisions a q).contains (s.getD q 0) then none
      else
        match scanObstacles P s a o qs (insert q pushed) with
        | none => none
        | some (new, pushed') => some (q :: new, pushed')
    else scanObstacles P s a o qs pushed

/-- The set of obstacle indices scanned by `getNextState`: all objects except
the agent (`for (int obstacle_idx = 1; obstacle_idx < m_num_objects; ...)`). -/
def obstacleIndices (P : PushWorldPuzzle) : List ℕ := (List.range P.numObjects).drop 1

/-- Specification of a successful `scanObstacles` pass, proved below and used
for the termination of the pushing work-list. -/
theorem scanObstacles_spec (P : PushWorldPuzzle) (s : State) (a : Action) (o : ℕ) :
    ∀ (qs : List ℕ) (pushed : Finset ℕ) (new : List ℕ) (pushed' : Finset ℕ),
      scanObstacles P s a o qs pushed = some (new, pushed') →
      pushed' = pushed ∪ new.toFinset ∧ new.Nodup ∧
        ∀ q ∈ new, q ∈ qs ∧ q ∉ pushed ∧
          (P.collisions.dynamic_collisions a o q).contains (s.getD o 0 - s.getD q 0) = true ∧
          (P.collisions.static_collisions a q).contains (s.getD q 0) = false := by
  intro qs
  induction qs with
  | nil =>
    intro pushed new pushed' h
    simp only [scanObstacles, Option.some.injEq, Prod.mk.injEq] at h
    obtain ⟨h1, h2⟩ := h
    subst h1; subst h2
    simp
  | cons q qs ih =>
    intro pushed new pushed' h
    simp only [scanObstacles] at h
    by_cases hq : q ∈ pushed
    · rw [if_pos hq] at h
      obtain ⟨h1, h2, h3⟩ := ih pushed new pushed' h
      exact ⟨h1, h2, fun r hr => by
        obtain ⟨hr1, hr2, hr3⟩ := h3 r hr
        exact ⟨List.mem_cons_of_mem _ hr1, hr2, hr3⟩⟩
    · rw [if_neg hq] at h
      by_cases hdyn :
          (P.collisions.dynamic_collisions a o q).contains (s.getD o 0 - s.getD q 0) = true
      · rw [if_pos hdyn] at h
        by_cases hstat : (P.collisions.static_collisions a q).contains (s.getD q 0) = true
        · rw [if_pos hstat] at h; exact absurd h (by simp)
        · rw [if_neg hstat] at h
          cases hrec : scanObstacles P s a o qs (insert q pushed) with
          | none => rw [hrec] at h; exact absurd h (by simp)
          | some pr =>
            obtain ⟨new₀, pushed₀⟩ := pr
            rw [hrec] at h
            simp only [Option.some.injEq, Prod.mk.injEq] at h
            obtain ⟨h1, h2⟩ := h
            subst h2
            obtain ⟨g1, g2, g3⟩ := ih (insert q pushed) new₀ _ hrec
            have hqnew : q ∉ new₀ := fun hmem => (g3 q hmem).2.1 (Finset.mem_insert_self q pushed)
            constructor
            · subst h1
              rw [g1]
              ext r
              simp only [Finset.mem_union, Finset.mem_insert, List.toFinset_cons, List.mem_toFinset]
              tauto
            constructor
            · subst h1; exact List.nodup_cons.mpr ⟨hqnew, g2⟩
            · subst h1
              intro r hr
              rcases List.mem_cons.mp hr with hr | hr
              · subst hr
                exact ⟨List.mem_cons_self _ _, hq, hdyn, Bool.not_eq_true _ ▸ hstat⟩
              · obtain ⟨hr1, hr2, hr3⟩ := g3 r hr
                refine ⟨List.mem_cons_of_mem _ hr1, fun hc => hr2 ?_, hr3⟩
                exact Finset.mem_insert_of_mem hc
      · rw [if_neg hdyn] at h
        obtain ⟨h1, h2, h3⟩ := ih pushed new pushed' h
        exact ⟨h1, h2, fun r hr => by
          obtain ⟨hr1, hr2, hr3⟩ := h3 r hr
          exact ⟨List.mem_cons_of_mem _ hr1, hr2, hr3⟩⟩

/-- New obstacles found by a successful scan lie in `range numObjects` and are
disjoint from the previously pushed set, so the pushed set grows by exactly
`new.length` elements of `range numObjects`. -/
theorem scanObstacles_card (P : PushWorldPuzzle) (s : State) (a : Action) (o : ℕ)
    (pushed : Finset ℕ) (new : List ℕ) (pushed' : Finset ℕ)
    (h : scanObstacles P s a o (obstacleIndices P) pushed = some (new, pushed')) :
    (Finset.range P.numObjects \ pushed').card + new.length =
      (Finset.range P.numObjects \ pushed).card := by
  obtain ⟨h1, h2, h3⟩ := scanObstacles_spec P s a o _ pushed new pushed' h
  subst h1
  have hsub : new.toFinset ⊆ Finset.range P.numObjects \ pushed := by
    intro q hqmem
    obtain ⟨hq1, hq2, _⟩ := h3 q (List.mem_toFinset.mp hqmem)
    refine Finset.mem_sdiff.mpr ⟨?_, hq2⟩
    have : q ∈ List.range P.numObjects := List.mem_of_mem_drop hq1
    simpa using this
  have hcard : new.toFinset.card = new.length := List.toFinset_card_of_nodup h2
  have : Finset.range P.numObjects \ (pushed ∪ new.toFinset) =
      (Finset.range P.numObjects \ pushed) \ new.toFinset := by
    rw [Finset.sdiff_union_distrib]
    ext r
    simp only [Finset.mem_inter, Finset.mem_sdiff, List.mem_toFinset]
    constructor
    · rintro ⟨⟨hr1, hr2⟩, _, hr3⟩; exact ⟨⟨hr1, hr2⟩, hr3⟩
    · rintro ⟨⟨hr1, hr2⟩, hr3⟩; exact ⟨⟨hr1, hr2⟩, hr1, hr3⟩
  rw [this, Finset.card_sdiff hsub, hcard]
  have := Finset.card_le_card hsub
  omega

/-- The pushing work-list of `PushWorldPuzzle::getNextState`
(`pushworld_puzzle.cc`): pop an object from the frontier stack, scan all
obstacles for objects it pushes, abort on transitive stopping (`none`), and
otherwise push the newly moved objects onto the frontier. Returns the final
set of pushed object indices. The C++ loop terminates because each object
enters the frontier at most once; here this is the well-founded measure. -/
def pushLoop (P : PushWorldPuzzle) (s : State) (a : Action) :
    List ℕ → Finset ℕ → Option (Finset ℕ)
  | [], pushed => some pushed
  | o :: frontier, pushed =>
    match h : scanObstacles P s a o (obstacleIndices P) pushed with
    | none => none
    | some (new, pushed') => pushLoop P s a (new.reverse ++ frontier) pushed'
  termination_by frontier pushed =>
    (P.numObjects + 1) * (Finset.range P.numObjects \ pushed).card + frontier.length
  decreasing_by
    have hc := scanObstacles_card P s a _ pushed new pushed' h
    simp only [List.length_append, List.length_reverse, List.length_cons]
    have key := congrArg (fun t => (P.numObjects + 1) * t) hc
    simp only [Nat.mul_add] at key
    have hbig : new.length ≤ (P.numObjects + 1) * new.length :=
      Nat.le_mul_of_pos_left new.length (Nat.succ_pos P.numObjects)
    linarith [key, hbig]

theorem pushLoop_nil (P : PushWorldPuzzle) (s : State) (a : Action) (pushed : Finset ℕ) :
    pushLoop P s a [] pushed = some pushed := by
  simp [pushLoop]

theorem pushLoop_cons (P : PushWorldPuzzle) (s : State) (a : Action) (o : ℕ)
    (frontier : List ℕ) (pushed : Finset ℕ) :
    pushLoop P s a (o :: frontier) pushed =
      match scanObstacles P s a o (obstacleIndices P) pushed with
      | none => none
      | some (new, pushed') => pushLoop P s a (new.reverse ++ frontier) pushed' := by
  simp only [pushLoop]
  cases hscan : scanObstacles P s a o (obstacleIndices P) pushed with
  | none => rfl
  | some pr => cases pr; rfl

/-- `PushWorldPuzzle::getNextState` from `pushworld_puzzle.cc`. If the agent's
own static collision set contains its position, or the transitive pushing
computation aborts, the input state is returned with an empty moved-index
list. Otherwise every pushed object is displaced by the action's displacement,
every other object keeps its position, and the pushed indices are emitted in
ascending order. -/
def getNextState (P : PushWorldPuzzle) (s : State) (a : Action) : RelativeState :=
  if (P.collisions.static_collisions a 0).contains (s.getD 0 0) then
    ⟨s, []⟩
  else
    match pushLoop P s a [0] {0} with
    | none => ⟨s, []⟩
    | some pushed =>
      ⟨(List.range P.numObjects).map
          (fun i => if i ∈ pushed then s.getD i 0 + actionDisplacement a else s.getD i 0),
        (List.range P.numObjects).filter (fun i => decide (i ∈ pushed))⟩

/-- `PushWorldPuzzle::satisfiesGoal` from `pushworld_puzzle.cc`: goal entry
`i` is compared against `state[i+1]`. -/
def satisfiesGoal (P : PushWorldPuzzle) (s : State) : Bool :=
  (List.range P.goal.length).all (fun i => s.getD (i + 1) 0 == P.goal.getD i 0)

/-- Replays a plan from a state through `getNextState`; this is the loop
inside `PushWorldPuzzle::isValidPlan` (`pushworld_puzzle.cc`). -/
def replayPlan (P : PushWorldPuzzle) (s : State) (plan : Plan) : State :=
  plan.foldl (fun st act => (getNextState P st act).state) s

/-- `PushWorldPuzzle::isValidPlan` from `pushworld_puzzle.cc`. -/
def isValidPlan (P : PushWorldPuzzle) (plan : Plan) : Bool :=
  satisfiesGoal P (replayPlan P P.initial_state plan)

/-- The objects transitively pushed by the agent in state `s` under action
`a`, ignoring static collisions: the least set containing the agent (index 0)
and closed under the dynamic-collision ("`o` pushes `q`") relation over
non-agent object indices. This is the set explored by the pushing frontier of
`PushWorldPuzzle::getNextState`. -/
inductive TransitivelyPushed (P : PushWorldPuzzle) (s : State) (a : Action) : ℕ → Prop
  | agent : TransitivelyPushed P s a 0
  | push {o q : ℕ} : TransitivelyPushed P s a o → 1 ≤ q → q < P.numObjects →
      (P.collisions.dynamic_collisions a o q).contains (s.getD o 0 - s.getD q 0) = true →
      TransitivelyPushed P s a q

theorem mem_obstacleIndices (P : PushWorldPuzzle) (q : ℕ) :
    q ∈ obstacleIndices P ↔ 1 ≤ q ∧ q < P.numObjects := by
  unfold obstacleIndices
  cases hn : P.numObjects with
  | zero => simp
  | succ m =>
    rw [List.range_succ_eq_map]
    simp only [List.drop_succ_cons, List.drop_zero, List.mem_map, List.mem_range]
    constructor
    · rintro ⟨r, hr, rfl⟩; omega
    · rintro ⟨h1, h2⟩; exact ⟨q - 1, by omega, by omega⟩

/-- A successful scan marks every obstacle in `qs` that the pusher `o` pushes. -/
theorem scanObstacles_complete (P : PushWorldPuzzle) (s : State) (a : Action) (o : ℕ) :
    ∀ (qs : List ℕ) (pushed : Finset ℕ) (new : List ℕ) (pushed' : Finset ℕ),
      scanObstacles P s a o qs pushed = some (new, pushed') →
      ∀ q ∈ qs,
        (P.collisions.dynamic_collisions a o q).contains (s.getD o 0 - s.getD q 0) = true →
        q ∈ pushed' := by
  intro qs
  induction qs with
  | nil => intro pushed new pushed' _ q hq; exact absurd hq (List.not_mem_nil q)
  | cons r qs ih =>
    intro pushed new pushed' h q hq hdynq
    have hsub : pushed ⊆ pushed' := by
      obtain ⟨h1, _, _⟩ := scanObstacles_spec P s a o (r :: qs) pushed new pushed' h
      rw [h1]; exact Finset.subset_union_left
    simp only [scanObstacles] at h
    by_cases hr : r ∈ pushed
    · rw [if_pos hr] at h
      rcases List.mem_cons.mp hq with rfl | hq'
      · exact hsub hr
      · exact ih pushed new pushed' h q hq' hdynq
    · rw [if_neg hr] at h
      by_cases hdyn :
          (P.collisions.dynamic_collisions a o r).contains (s.getD o 0 - s.getD r 0) = true
      · rw [if_pos hdyn] at h
        by_cases hstat : (P.collisions.static_collisions a r).contains (s.getD r 0) = true
        · rw [if_pos hstat] at h; exact absurd h (by simp)
        · rw [if_neg hstat] at h
          cases hrec : scanObstacles P s a o qs (insert r pushed) with
          | none => rw [hrec] at h; exact absurd h (by simp)
          | some pr =>
            obtain ⟨new₀, pushed₀⟩ := pr
            rw [hrec] at h
            simp only [Option.some.injEq, Prod.mk.injEq] at h
            obtain ⟨h1, h2⟩ := h
            subst h2
            have hsub' : insert r pushed ⊆ pushed₀ := by
              obtain ⟨g1, _, _⟩ := scanObstacles_spec P s a o qs (insert r pushed) new₀ _ hrec
              rw [g1]; exact Finset.subset_union_left
            rcases List.mem_cons.mp hq with rfl | hq'
            · exact hsub' (Finset.mem_insert_self q pushed)
            · exact ih (insert r pushed) new₀ _ hrec q hq' hdynq
      · rw [if_neg hdyn] at h
        rcases List.mem_cons.mp hq with rfl | hq'
        · exact absurd hdynq hdyn
        · exact ih pushed new pushed' h q hq' hdynq

/-- Work-list invariant of `pushLoop`: every pushed object is either still
waiting on the frontier or has already had its pushing effects recorded. -/
def LoopInv (P : PushWorldPuzzle) (s : State) (a : Action)
    (frontier : List ℕ) (pushed : Finset ℕ) : Prop :=
  ∀ o ∈ pushed, o ∈ frontier ∨
    ∀ q, 1 ≤ q → q < P.numObjects →
      (P.collisions.dynamic_collisions a o q).contains (s.getD o 0 - s.getD q 0) = true →
      q ∈ pushed

/-- A completed run of the pushing work-list yields a set of pushed objects
that contains the initially pushed ones, is closed under the pushing
relation, and contains no non-agent object in static collision. -/
theorem pushLoop_some_spec (P : PushWorldPuzzle) (s : State) (a : Action) :
    ∀ (frontier : List ℕ) (pushed final : Finset ℕ),
      pushLoop P s a frontier pushed = some final →
      LoopInv P s a frontier pushed →
      (∀ q ∈ pushed, q ≠ 0 → (P.collisions.static_collisions a q).contains (s.getD q 0) = false) →
      pushed ⊆ final ∧
      (∀ o ∈ final, ∀ q, 1 ≤ q → q < P.numObjects →
        (P.collisions.dynamic_collisions a o q).contains (s.getD o 0 - s.getD q 0) = true →
        q ∈ final) ∧
      (∀ q ∈ final, q ≠ 0 →
        (P.collisions.static_collisions a q).contains (s.getD q 0) = false) := by
  intro frontier pushed
  induction frontier, pushed using pushLoop.induct P s a with
  | case1 pushed =>
    intro final hrun hinv hstat
    simp only [pushLoop, Option.some.injEq] at hrun
    subst hrun
    refine ⟨Finset.Subset.refl _, ?_, hstat⟩
    intro o ho q hq1 hq2 hdyn
    rcases hinv o ho with hfr | hcl
    · exact absurd hfr (List.not_mem_nil o)
    · exact hcl q hq1 hq2 hdyn
  | case2 o frontier pushed hscan =>
    intro final hrun hinv hstat
    rw [pushLoop_cons, hscan] at hrun
    exact Option.noConfusion hrun
  | case3 o frontier pushed new pushed' hscan ih =>
    intro final hrun hinv hstat
    rw [pushLoop_cons, hscan] at hrun
    obtain ⟨hspec1, _, hspec3⟩ := scanObstacles_spec P s a o _ pushed new pushed' hscan
    have hsub : pushed ⊆ pushed' := by rw [hspec1]; exact Finset.subset_union_left
    have hinv' : LoopInv P s a (new.reverse ++ frontier) pushed' := by
      intro p hp
      rw [hspec1] at hp
      rcases Finset.mem_union.mp hp with hp | hp
      · rcases hinv p hp with hfr | hcl
        · rcases List.mem_cons.mp hfr with rfl | hfr'
          · right
            intro q hq1 hq2 hdyn
            exact scanObstacles_complete P s a p _ pushed new pushed' hscan q
              ((mem_obstacleIndices P q).mpr ⟨hq1, hq2⟩) hdyn
          · left; exact List.mem_append_right _ hfr'
        · right; intro q hq1 hq2 hdyn; exact hsub (hcl q hq1 hq2 hdyn)
      · left
        exact List.mem_append_left _ (List.mem_reverse.mpr (List.mem_toFinset.mp hp))
    have hstat' : ∀ q ∈ pushed', q ≠ 0 →
        (P.collisions.static_collisions a q).contains (s.getD q 0) = false := by
      intro q hq hq0
      rw [hspec1] at hq
      rcases Finset.mem_union.mp hq with hq | hq
      · exact hstat q hq hq0
      · exact (hspec3 q (List.mem_toFinset.mp hq)).2.2.2
    obtain ⟨g1, g2, g3⟩ := ih final hrun hinv' hstat'
    exact ⟨fun x hx => g1 (hsub hx), g2, g3⟩

/-- Every transitively pushed object ends up in the final pushed set of a
completed (non-aborting) run of the pushing work-list. -/
theorem transitivelyPushed_mem_final (P : PushWorldPuzzle) (s : State) (a : Action)
    (final : Finset ℕ) (hrun : pushLoop P s a [0] {0} = some final) :
    ∀ q, TransitivelyPushed P s a q → q ∈ final := by
  have hinv : LoopInv P s a [0] {0} := by
    intro o ho
    left
    simp only [Finset.mem_singleton] at ho
    subst ho
    exact List.mem_singleton.mpr rfl
  have hstat : ∀ q ∈ ({0} : Finset ℕ), q ≠ 0 →
      (P.collisions.static_collisions a q).contains (s.getD q 0) = false := by
    intro q hq hq0
    simp only [Finset.mem_singleton] at hq
    exact absurd hq hq0
  obtain ⟨h1, h2, _⟩ := pushLoop_some_spec P s a [0] {0} final hrun hinv hstat
  intro q hq
  induction hq with
  | agent => exact h1 (Finset.mem_singleton_self 0)
  | push ho hq1 hq2 hdyn ih => exact h2 _ ih _ hq1 hq2 hdyn

/-- **C2.** If the agent's static collision set for action `a` contains the
agent's position, or some object reached by the transitive pushing
computation has its own position in its static collision set for `a`, then
`getNextState` returns the input state unchanged with an empty
moved-object-index list (transitive stopping). -/
theorem getNextState_transitive_stopping (P : PushWorldPuzzle) (s : State) (a : Action)
    (h : (P.collisions.static_collisions a 0).contains (s.getD 0 0) = true ∨
      ∃ q, TransitivelyPushed P s a q ∧ 1 ≤ q ∧
        (P.collisions.static_collisions a q).contains (s.getD q 0) = true) :
    getNextState P s a = ⟨s, []⟩ := by
  unfold getNextState
  by_cases hagent : (P.collisions.static_collisions a 0).contains (s.getD 0 0) = true
  · rw [if_pos hagent]
  · rw [if_neg hagent]
    rcases h with h | ⟨q, hq, hq1, hqstat⟩
    · exact absurd h hagent
    cases hrun : pushLoop P s a [0] {0} with
    | none => rfl
    | some final =>
      exfalso
      have hmem := transitivelyPushed_mem_final P s a final hrun q hq
      have hinv : LoopInv P s a [0] {0} := by
        intro o ho
        left
        simp only [Finset.mem_singleton] at ho
        subst ho
        exact List.mem_singleton.mpr rfl
      have hstat0 : ∀ r ∈ ({0} : Finset ℕ), r ≠ 0 →
          (P.collisions.static_collisions a r).contains (s.getD r 0) = false := by
        intro r hr hr0
        simp only [Finset.mem_singleton] at hr
        exact absurd hr hr0
      obtain ⟨_, _, h3⟩ := pushLoop_some_spec P s a [0] {0} final hrun hinv hstat0
      have := h3 q hmem (by omega)
      rw [this] at hqstat
      exact Bool.false_ne_true hqstat

/-- A concrete two-object puzzle: the agent at (1,1) pushes object 1 at
(2,1), which is in static collision when moving right. -/
def puzzleStop : PushWorldPuzzle where
  initial_state := [xy_to_position 1 1, xy_to_position 2 1]
  goal := [xy_to_position 3 1]
  collisions :=
    { static_collisions := fun a i =>
        if a = 1 ∧ i = 1 then [xy_to_position 2 1] else []
      dynamic_collisions := fun a i j =>
        if a = 1 ∧ i = 0 ∧ j = 1 then [xy_to_position (-1) 0] else [] }

/-- Witness for C2: on `puzzleStop`, moving right pushes object 1 into a
wall, and the transition returns the input state unchanged. -/
theorem getNextState_transitive_stopping_witness :
    getNextState puzzleStop [xy_to_position 1 1, xy_to_position 2 1] 1 =
      ⟨[xy_to_position 1 1, xy_to_position 2 1], []⟩ :=
  getNextState_transitive_stopping puzzleStop _ 1
    (Or.inr ⟨1, TransitivelyPushed.push TransitivelyPushed.agent (by decide) (by decide)
      (by decide), by decide, by decide⟩)

theorem getD_map_range {α : Type} (f : ℕ → α) (n i : ℕ) (d : α) :
    ((List.range n).map f).getD i d = if i < n then f i else d := by
  by_cases h : i < n
  · rw [if_pos h, List.getD_eq_getElem?_getD, List.getElem?_map, List.getElem?_range h]
    rfl
  · rw [if_neg h, List.getD_eq_getElem?_getD, List.getElem?_eq_none (by simpa using h)]
    rfl

/-- **C3.** When `getNextState` does not abort (its moved-index list is
non-empty), the returned state gives every moved object its input position
plus the action's displacement, every other object keeps its input position,
and the moved indices are strictly ascending starting with the agent
index 0. -/
theorem getNextState_frame (P : PushWorldPuzzle) (s : State) (a : Action)
    (h : (getNextState P s a).moved_object_indices ≠ []) :
    (getNextState P s a).moved_object_indices.head? = some 0 ∧
    List.Pairwise (· < ·) (getNextState P s a).moved_object_indices ∧
    (∀ i ∈ (getNextState P s a).moved_object_indices,
      (getNextState P s a).state.getD i 0 = s.getD i 0 + actionDisplacement a) ∧
    (∀ i < P.numObjects, i ∉ (getNextState P s a).moved_object_indices →
      (getNextState P s a).state.getD i 0 = s.getD i 0) ∧
    (getNextState P s a).state.length = P.numObjects := by
  unfold getNextState at *
  by_cases hagent : (P.collisions.static_collisions a 0).contains (s.getD 0 0) = true
  · rw [if_pos hagent] at h ⊢
    exact absurd rfl h
  · rw [if_neg hagent] at h ⊢
    cases hrun : pushLoop P s a [0] {0} with
    | none => rw [hrun] at h; exact absurd rfl h
    | some final =>
      rw [hrun] at h
      simp only at h ⊢
      have hmono : ({0} : Finset ℕ) ⊆ final := by
        have hinv : LoopInv P s a [0] {0} := by
          intro o ho
          left
          simp only [Finset.mem_singleton] at ho
          subst ho
          exact List.mem_singleton.mpr rfl
        have hstat0 : ∀ r ∈ ({0} : Finset ℕ), r ≠ 0 →
            (P.collisions.static_collisions a r).contains (s.getD r 0) = false := by
          intro r hr hr0
          simp only [Finset.mem_singleton] at hr
          exact absurd hr hr0
        exact (pushLoop_some_spec P s a [0] {0} final hrun hinv hstat0).1
      have h0 : 0 ∈ final := hmono (Finset.mem_singleton_self 0)
      have hn : 0 < P.numObjects := by
        by_contra hn
        have : P.numObjects = 0 := by omega
        rw [this] at h
        exact h rfl
      refine ⟨?_, ?_, ?_, ?_, ?_⟩
      · obtain ⟨m, hm⟩ : ∃ m, P.numObjects = m + 1 := ⟨P.numObjects - 1, by omega⟩
        rw [hm, List.range_succ_eq_map, List.filter_cons]
        simp [h0]
      · exact List.Pairwise.sublist (List.filter_sublist _) (List.pairwise_lt_range _)
      · intro i hi
        rw [List.mem_filter, List.mem_range] at hi
        obtain ⟨hi1, hi2⟩ := hi
        rw [getD_map_range, if_pos hi1, if_pos (by simpa using hi2)]
      · intro i hi1 hi2
        rw [getD_map_range, if_pos hi1, if_neg]
        intro hmem
        exact hi2 (List.mem_filter.mpr ⟨List.mem_range.mpr hi1, by simpa using hmem⟩)
      · simp

/-- A concrete one-object puzzle with no walls near the agent. -/
def puzzleFree : PushWorldPuzzle where
  initial_state := [xy_to_position 1 1]
  goal := []
  collisions :=
    { static_collisions := fun _ _ => []
      dynamic_collisions := fun _ _ _ => [] }

/-- Witness for C3 at a concrete non-aborting transition. -/
theorem getNextState_frame_witness :
    ((getNextState puzzleFree [xy_to_position 1 1] 1).moved_object_indices ≠ [] ∧
      (getNextState puzzleFree [xy_to_position 1 1] 1).moved_object_indices.head? = some 0) ∧
    (getNextState puzzleFree [xy_to_position 1 1] 1).state.getD 0 0 =
      [xy_to_position 1 1].getD 0 0 + actionDisplacement 1 := by
  have e2 : pushLoop puzzleFree [xy_to_position 1 1] 1 [0] {0} = some {0} := by
    rw [pushLoop_cons]
    have e1 : scanObstacles puzzleFree [xy_to_position 1 1] 1 0
        (obstacleIndices puzzleFree) {0} = some ([], {0}) := by decide
    rw [e1]
    show pushLoop puzzleFree [xy_to_position 1 1] 1 [] {0} = some {0}
    exact pushLoop_nil _ _ _ _
  have hg : getNextState puzzleFree [xy_to_position 1 1] 1 =
      ⟨[xy_to_position 1 1 + actionDisplacement 1], [0]⟩ := by
    unfold getNextState
    rw [if_neg (by decide), e2]
    decide
  have hne : (getNextState puzzleFree [xy_to_position 1 1] 1).moved_object_indices ≠ [] := by
    rw [hg]; decide
  have hmain := getNextState_frame puzzleFree [xy_to_position 1 1] 1 hne
  exact ⟨⟨hne, hmain.1⟩, hmain.2.2.1 0 (by rw [hg]; exact List.mem_singleton.mpr rfl)⟩

/-- `SearchNode` from `search.h`: a state plus a parent pointer (`nullptr` at
the root). The producing action is not stored. -/
inductive SearchNode where
  | root (s : State)
  | child (parent : SearchNode) (s : State)

/-- The `state` field of a `SearchNode`. -/
def SearchNode.state : SearchNode → State
  | .root s => s
  | .child _ s => s

/-- The state of the root ancestor of a node, reached by following `parent`
pointers as `backtrackPlan` does. -/
def SearchNode.rootState : SearchNode → State
  | .root s => s
  | .child p _ => p.rootState

/-- The backtracking loop of `backtrackPlan` (`search.cc`): walk to the root,
for each node finding the first action (`for (action = 0; action <
NUM_ACTIONS; action++)`) that reproduces the child's state from the parent's
state; the accumulator plays the role of the final `std::reverse`. `none`
models the `invalid_argument` exception thrown when no action matches. -/
def backtrackAux (P : PushWorldPuzzle) : SearchNode → Plan → Option Plan
  | .root _, acc => some acc
  | .child parent st, acc =>
    match (List.range NUM_ACTIONS).find?
        (fun act => (getNextState P parent.state act).state == st) with
    | none => none
    | some act => backtrackAux P parent (act :: acc)

/-- `backtrackPlan` from `search.cc`. -/
def backtrackPlan (P : PushWorldPuzzle) (node : SearchNode) : Option Plan :=
  backtrackAux P node []

/-- The inner action loop of `best_first_search` (`best_first_search.h`):
expand the popped `parent` with each action of the current action group. A
child state already in `visited` is skipped; a goal-satisfying child returns
the backtracked plan (`Sum.inl`, with `Except.error` modelling the exception
from `backtrackPlan`); otherwise the child is pushed onto the frontier with
its heuristic estimate and recorded as visited. -/
def expandActions (P : PushWorldPuzzle) (heur : State → ℕ) (parent : SearchNode) :
    List Action → List (SearchNode × ℕ) → List State →
    Except Unit (Option Plan) ⊕ (List (SearchNode × ℕ) × List State)
  | [], fr, vis => Sum.inr (fr, vis)
  | act :: rest, fr, vis =>
    let s' := (getNextState P parent.state act).state
    if vis.contains s' then expandActions P heur parent rest fr vis
    else
      if satisfiesGoal P s' then
        match backtrackPlan P (SearchNode.child parent s') with
        | some plan => Sum.inl (Except.ok (some plan))
        | none => Sum.inl (Except.error ())
      else
        expandActions P heur parent rest
          (fr ++ [(SearchNode.child parent s', heur s')]) (vis ++ [s'])

/-- The main loop of `best_first_search` (`best_first_search.h`), embedded
with explicit fuel for the outer `while (!frontier.empty())` loop
(`Except.error` on exhaustion; the C++ loop always terminates on real puzzles
because the reachable state space is finite). The priority queue is embedded
as a list together with a selection policy `pick`: the C++ `frontier.top()`
pops some minimum-priority element, which is one such policy, so every
theorem quantified over `pick` covers both C++ `PriorityQueue`
implementations and any tie-breaking. `actionSeq k` is the `k`-th action
group of the `RandomActionIterator`. -/
def bfsLoop (P : PushWorldPuzzle) (heur : State → ℕ)
    (pick : List (SearchNode × ℕ) → ℕ) (actionSeq : ℕ → List Action) :
    ℕ → ℕ → List (SearchNode × ℕ) → List State → Except Unit (Option Plan)
  | 0, _, _, _ => Except.error ()
  | fuel + 1, k, fr, vis =>
    if fr.isEmpty then Except.ok none
    else
      let idx := pick fr % fr.length
      let parent := (fr.getD idx (SearchNode.root [], 0)).1
      match expandActions P heur parent (actionSeq k) (fr.eraseIdx idx) vis with
      | Sum.inl res => res
      | Sum.inr (fr', vis') => bfsLoop P heur pick actionSeq fuel (k + 1) fr' vis'

/-- `best_first_search` from `best_first_search.h`: if the initial state
satisfies the goal, the empty plan is returned immediately; otherwise the
frontier and visited set are re-initialised with the initial state and the
main loop runs. -/
def best_first_search (P : PushWorldPuzzle) (heur : State → ℕ)
    (pick : List (SearchNode × ℕ) → ℕ) (actionSeq : ℕ → List Action)
    (fuel : ℕ) : Except Unit (Option Plan) :=
  if satisfiesGoal P P.initial_state then Except.ok (some [])
  else
    bfsLoop P heur pick actionSeq fuel 0
      [(SearchNode.root P.initial_state, heur P.initial_state)] [P.initial_state]

theorem replayPlan_append (P : PushWorldPuzzle) (s : State) (l1 l2 : Plan) :
    replayPlan P s (l1 ++ l2) = replayPlan P (replayPlan P s l1) l2 :=
  List.foldl_append _ _ _ _

/-- A successful backtrack from a node yields a plan that replays from the
node's root ancestor's state to the node's own state. -/
theorem backtrackAux_spec (P : PushWorldPuzzle) :
    ∀ (node : SearchNode) (acc L : Plan), backtrackAux P node acc = some L →
      ∃ pre, L = pre ++ acc ∧ replayPlan P node.rootState pre = node.state := by
  intro node
  induction node with
  | root s =>
    intro acc L h
    simp only [backtrackAux, Option.some.injEq] at h
    exact ⟨[], by simp [h.symm], rfl⟩
  | child parent st ih =>
    intro acc L h
    simp only [backtrackAux] at h
    cases hfind : (List.range NUM_ACTIONS).find?
        (fun act => (getNextState P parent.state act).state == st) with
    | none => rw [hfind] at h; exact absurd h (by simp)
    | some act =>
      rw [hfind] at h
      obtain ⟨pre', hL, hre⟩ := ih (act :: acc) L h
      refine ⟨pre' ++ [act], by simp [hL], ?_⟩
      have hbeq := List.find?_some hfind
      have hstep : (getNextState P parent.state act).state = st := by
        exact eq_of_beq hbeq
      show replayPlan P (SearchNode.child parent st).rootState (pre' ++ [act]) =
        (SearchNode.child parent st).state
      have hroot : (SearchNode.child parent st).rootState = parent.rootState := rfl
      rw [hroot, replayPlan_append, hre]
      simp only [replayPlan, List.foldl_cons, List.foldl_nil]
      exact hstep

/-- If `expandActions` returns a plan, that plan replays from the root state
of the expanded parent to a goal-satisfying state. -/
theorem expandActions_found (P : PushWorldPuzzle) (heur : State → ℕ) (parent : SearchNode) :
    ∀ (acts : List Action) (fr : List (SearchNode × ℕ)) (vis : List State) (plan : Plan),
      expandActions P heur parent acts fr vis = Sum.inl (Except.ok (some plan)) →
      satisfiesGoal P (replayPlan P parent.rootState plan) = true := by
  intro acts
  induction acts with
  | nil =>
    intro fr vis plan h
    exact absurd h (by simp [expandActions])
  | cons act rest ih =>
    intro fr vis plan h
    simp only [expandActions] at h
    by_cases hvis : vis.contains ((getNextState P parent.state act).state) = true
    · rw [if_pos hvis] at h
      exact ih _ _ plan h
    · rw [if_neg hvis] at h
      by_cases hgoal : satisfiesGoal P ((getNextState P parent.state act).state) = true
      · rw [if_pos hgoal] at h
        cases hbt : backtrackPlan P
            (SearchNode.child parent ((getNextState P parent.state act).state)) with
        | none => rw [hbt] at h; exact absurd h (by simp)
        | some plan' =>
          rw [hbt] at h
          simp only [Sum.inl.injEq, Except.ok.injEq, Option.some.injEq] at h
          rw [← h]
          obtain ⟨pre, hL, hre⟩ := backtrackAux_spec P _ [] plan' hbt
          rw [List.append_nil] at hL
          subst hL
          have hre' : replayPlan P parent.rootState plan' =
              (getNextState P parent.state act).state := hre
          rw [hre']
          exact hgoal
      · rw [if_neg hgoal] at h
        exact ih _ _ plan h

/-- `expandActions` only ever adds children of the expanded parent to the
frontier, so frontier nodes keep their root ancestor. -/
theorem expandActions_rooted (P : PushWorldPuzzle) (heur : State → ℕ) (parent : SearchNode) :
    ∀ (acts : List Action) (fr : List (SearchNode × ℕ)) (vis : List State)
      (fr' : List (SearchNode × ℕ)) (vis' : List State),
      expandActions P heur parent acts fr vis = Sum.inr (fr', vis') →
      (∀ pr ∈ fr, (Prod.fst pr).rootState = P.initial_state) →
      parent.rootState = P.initial_state →
      ∀ pr ∈ fr', (Prod.fst pr).rootState = P.initial_state := by
  intro acts
  induction acts with
  | nil =>
    intro fr vis fr' vis' h hfr _
    simp only [expandActions, Sum.inr.injEq, Prod.mk.injEq] at h
    obtain ⟨h1, _⟩ := h
    subst h1
    exact hfr
  | cons act rest ih =>
    intro fr vis fr' vis' h hfr hparent
    simp only [expandActions] at h
    by_cases hvis : vis.contains ((getNextState P parent.state act).state) = true
    · rw [if_pos hvis] at h
      exact ih _ _ _ _ h hfr hparent
    · rw [if_neg hvis] at h
      by_cases hgoal : satisfiesGoal P ((getNextState P parent.state act).state) = true
      · rw [if_pos hgoal] at h
        cases hbt : backtrackPlan P
            (SearchNode.child parent ((getNextState P parent.state act).state)) with
        | none => rw [hbt] at h; exact absurd h (by simp)
        | some plan' => rw [hbt] at h; exact absurd h (by simp)
      · rw [if_neg hgoal] at h
        refine ih _ _ _ _ h ?_ hparent
        intro pr hpr
        rcases List.mem_append.mp hpr with hpr | hpr
        · exact hfr pr hpr
        · rw [List.mem_singleton] at hpr
          subst hpr
          exact hparent

/-- If the search loop returns a plan, that plan replays from the initial
state to a goal-satisfying state, provided every frontier node has the
initial state as its root ancestor. -/
theorem bfsLoop_spec (P : PushWorldPuzzle) (heur : State → ℕ)
    (pick : List (SearchNode × ℕ) → ℕ) (actionSeq : ℕ → List Action) :
    ∀ (fuel k : ℕ) (fr : List (SearchNode × ℕ)) (vis : List State) (plan : Plan),
      (∀ pr ∈ fr, (Prod.fst pr).rootState = P.initial_state) →
      bfsLoop P heur pick actionSeq fuel k fr vis = Except.ok (some plan) →
      satisfiesGoal P (replayPlan P P.initial_state plan) = true := by
  intro fuel
  induction fuel with
  | zero => intro k fr vis plan _ h; exact absurd h (by simp [bfsLoop])
  | succ fuel ih =>
    intro k fr vis plan hfr h
    simp only [bfsLoop] at h
    by_cases hemp : fr.isEmpty = true
    · rw [if_pos hemp] at h
      simp only [Except.ok.injEq] at h
      exact absurd h (by simp)
    · rw [if_neg hemp] at h
      have hlen : 0 < fr.length := by
        cases fr with
        | nil => exact absurd rfl hemp
        | cons x t => simp
      have hidx : pick fr % fr.length < fr.length := Nat.mod_lt _ hlen
      have hmem : fr.getD (pick fr % fr.length) (SearchNode.root [], 0) ∈ fr := by
        rw [List.getD_eq_getElem?_getD, List.getElem?_eq_getElem hidx]
        exact List.getElem_mem _
      have hparent : (Prod.fst (fr.getD (pick fr % fr.length)
          (SearchNode.root [], 0))).rootState = P.initial_state := hfr _ hmem
      cases hexp : expandActions P heur
          (Prod.fst (fr.getD (pick fr % fr.length) (SearchNode.root [], 0)))
          (actionSeq k) (fr.eraseIdx (pick fr % fr.length)) vis with
      | inl res =>
        rw [hexp] at h
        subst h
        have := expandActions_found P heur _ _ _ _ plan hexp
        rw [hparent] at this
        exact this
      | inr pr =>
        obtain ⟨fr', vis'⟩ := pr
        rw [hexp] at h
        refine ih (k + 1) fr' vis' plan ?_ h
        refine expandActions_rooted P heur _ _ _ _ _ _ hexp ?_ hparent
        intro q hq
        exact hfr q (List.eraseIdx_subset _ _ hq)

/-- **C1.** Every plan returned by `best_first_search` (recovered by
`backtrackPlan` via action replay), replayed from the puzzle's initial state
through `getNextState`, ends in a state satisfying the goal; and if the
initial state already satisfies the goal, the returned plan is empty. The
theorem holds for every frontier-selection policy `pick` (covering both
priority-queue implementations and any tie-breaking), every action-group
sequence, every heuristic and every fuel bound. -/
theorem best_first_search_plan_valid (P : PushWorldPuzzle) (heur : State → ℕ)
    (pick : List (SearchNode × ℕ) → ℕ) (actionSeq : ℕ → List Action) (fuel : ℕ) :
    (∀ plan : Plan, best_first_search P heur pick actionSeq fuel = Except.ok (some plan) →
      satisfiesGoal P (replayPlan P P.initial_state plan) = true) ∧
    (satisfiesGoal P P.initial_state = true →
      best_first_search P heur pick actionSeq fuel = Except.ok (some [])) := by
  constructor
  · intro plan h
    unfold best_first_search at h
    by_cases hinit : satisfiesGoal P P.initial_state = true
    · rw [if_pos hinit] at h
      simp only [Except.ok.injEq, Option.some.injEq] at h
      subst h
      exact hinit
    · rw [if_neg hinit] at h
      refine bfsLoop_spec P heur pick actionSeq fuel 0 _ _ plan ?_ h
      intro pr hpr
      rw [List.mem_singleton] at hpr
      subst hpr
      rfl
  · intro hinit
    unfold best_first_search
    rw [if_pos hinit]

/-- Witness for C1 on a concrete puzzle whose initial state satisfies the
(empty) goal: the search returns the empty plan, and that plan replays to a
goal-satisfying state. -/
theorem best_first_search_plan_valid_witness :
    best_first_search puzzleFree (fun _ => 0) (fun _ => 0) (fun _ => [0, 1, 2, 3]) 1 =
      Except.ok (some []) ∧
    satisfiesGoal puzzleFree (replayPlan puzzleFree puzzleFree.initial_state []) = true := by
  have h := best_first_search_plan_valid puzzleFree (fun _ => 0) (fun _ => 0)
    (fun _ => [0, 1, 2, 3]) 1
  have hinit : satisfiesGoal puzzleFree puzzleFree.initial_state = true := by decide
  have hret := h.2 hinit
  exact ⟨hret, h.1 [] hret⟩

theorem mem_range_drop (k : ℕ) :
    ∀ (n q : ℕ), q ∈ (List.range n).drop k ↔ k ≤ q ∧ q < n := by
  induction k with
  | zero => intro n q; simp [List.mem_range]
  | succ k ih =>
    intro n q
    cases n with
    | zero => simp
    | succ m =>
      rw [List.range_succ_eq_map, List.drop_succ_cons, ← List.map_drop]
      simp only [List.mem_map]
      constructor
      · rintro ⟨r, hr, rfl⟩
        have := (ih m r).mp hr
        omega
      · rintro ⟨h1, h2⟩
        exact ⟨q - 1, (ih m (q - 1)).mpr (by omega), by omega⟩

/-- The mutable state of `NoveltyHeuristic` (`novelty.h`):
`m_visited_positions` and `m_visited_position_pairs`, embedded as functions
from object indices to the current contents of each `unordered_set`. -/
structure NoveltyState where
  visited_positions : ℕ → Finset Position
  visited_position_pairs : ℕ → ℕ → Finset (Position × Position)

/-- `m_visited_positions[i].insert(p)` from `novelty.cc`. -/
def updateVP (ns : NoveltyState) (i : ℕ) (p : Position) : NoveltyState :=
  { ns with visited_positions :=
      Function.update ns.visited_positions i (insert p (ns.visited_positions i)) }

/-- `m_visited_position_pairs[a][b].insert(v)` from `novelty.cc`. -/
def updateVPP (ns : NoveltyState) (a b : ℕ) (v : Position × Position) : NoveltyState :=
  let row := Function.update (ns.visited_position_pairs a) b
    (insert v (ns.visited_position_pairs a b))
  { ns with visited_position_pairs := Function.update ns.visited_position_pairs a row }

theorem updateVP_vp (ns : NoveltyState) (i : ℕ) (p : Position) (x : ℕ) :
    (updateVP ns i p).visited_positions x =
      if x = i then insert p (ns.visited_positions i) else ns.visited_positions x := by
  by_cases h : x = i
  · subst h; simp [updateVP]
  · simp [updateVP, Function.update_noteq h, h]

theorem updateVP_vpp (ns : NoveltyState) (i : ℕ) (p : Position) :
    (updateVP ns i p).visited_position_pairs = ns.visited_position_pairs := rfl

theorem updateVPP_vpp (ns : NoveltyState) (a b : ℕ) (v : Position × Position) (x y : ℕ) :
    (updateVPP ns a b v).visited_position_pairs x y =
      if x = a ∧ y = b then insert v (ns.visited_position_pairs a b)
      else ns.visited_position_pairs x y := by
  by_cases hx : x = a
  · subst hx
    by_cases hy : y = b
    · subst hy; simp [updateVPP]
    · simp [updateVPP, Function.update_noteq hy, hy]
  · simp [updateVPP, Function.update_noteq hx, hx]

theorem updateVPP_vp (ns : NoveltyState) (a b : ℕ) (v : Position × Position) :
    (updateVPP ns a b v).visited_positions = ns.visited_positions := rfl

theorem NoveltyState.ext_fun (a b : NoveltyState)
    (h1 : ∀ x, a.visited_positions x = b.visited_positions x)
    (h2 : ∀ x y, a.visited_position_pairs x y = b.visited_position_pairs x y) :
    a = b := by
  cases a
  cases b
  simp only [NoveltyState.mk.injEq]
  exact ⟨funext h1, funext (fun x => funext (h2 x))⟩

/-- One iteration of the first inner loop of
`NoveltyHeuristic::estimate_cost_to_goal` (`novelty.cc`): for `j < i`, insert
the index-ordered pair `(state[j], state[i])` into
`visited_position_pairs[j][i]`; if new and the current novelty exceeds 2,
lower it to 2. -/
def pairStepLow (r : RelativeState) (i : ℕ) (acc : ℕ × NoveltyState) (j : ℕ) :
    ℕ × NoveltyState :=
  let v := (r.state.getD j 0, r.state.getD i 0)
  (if v ∉ acc.2.visited_position_pairs j i ∧ acc.1 > 2 then 2 else acc.1,
   updateVPP acc.2 j i v)

/-- One iteration of the second inner loop of
`NoveltyHeuristic::estimate_cost_to_goal` (`novelty.cc`): for `j > i`, insert
`(state[i], state[j])` into `visited_position_pairs[i][j]`. -/
def pairStepHigh (r : RelativeState) (i : ℕ) (acc : ℕ × NoveltyState) (j : ℕ) :
    ℕ × NoveltyState :=
  let v := (r.state.getD i 0, r.state.getD j 0)
  (if v ∉ acc.2.visited_position_pairs i j ∧ acc.1 > 2 then 2 else acc.1,
   updateVPP acc.2 i j v)

/-- The body of the loop over moved object indices in
`NoveltyHeuristic::estimate_cost_to_goal` (`novelty.cc`): insert `state[i]`
into `visited_positions[i]` (novelty 1 if new), then run the two pair loops
(`j < i`, then `i < j < m_state_size`). -/
def noveltyVisit (size : ℕ) (r : RelativeState) (acc : ℕ × NoveltyState) (i : ℕ) :
    ℕ × NoveltyState :=
  let p := r.state.getD i 0
  let nov₁ := if p ∉ acc.2.visited_positions i then 1 else acc.1
  let acc₁ := (nov₁, updateVP acc.2 i p)
  let acc₂ := (List.range i).foldl (pairStepLow r i) acc₁
  ((List.range size).drop (i + 1)).foldl (pairStepHigh r i) acc₂

/-- `NoveltyHeuristic::estimate_cost_to_goal(const RelativeState&)` from
`novelty.cc` (the optimized estimator of the open-source tree): novelty
starts at 3 and the loop visits only the moved object indices. Returns the
novelty value together with the updated heuristic state. -/
def noveltyEstimate (size : ℕ) (ns : NoveltyState) (r : RelativeState) :
    ℕ × NoveltyState :=
  r.moved_object_indices.foldl (noveltyVisit size r) (3, ns)

/-- Effect of the first pair loop (`j < i`) on the novelty accumulator. -/
theorem pairFoldLow_spec (r : RelativeState) (i : ℕ) :
    ∀ (js : List ℕ), js.Nodup → ∀ (acc : ℕ × NoveltyState),
      ((js.foldl (pairStepLow r i) acc).2.visited_positions = acc.2.visited_positions) ∧
      (∀ x y, (js.foldl (pairStepLow r i) acc).2.visited_position_pairs x y =
        if x ∈ js ∧ y = i then
          insert (r.state.getD x 0, r.state.getD i 0) (acc.2.visited_position_pairs x y)
        else acc.2.visited_position_pairs x y) ∧
      ((js.foldl (pairStepLow r i) acc).1 =
        if (∃ j ∈ js, (r.state.getD j 0, r.state.getD i 0) ∉ acc.2.visited_position_pairs j i)
            ∧ acc.1 > 2 then 2 else acc.1) := by
  intro js
  induction js with
  | nil =>
    intro _ acc
    refine ⟨rfl, fun x y => by simp, by simp⟩
  | cons j js ih =>
    intro hnd acc
    have hjnot : j ∉ js := (List.nodup_cons.mp hnd).1
    have hnd' : js.Nodup := (List.nodup_cons.mp hnd).2
    rw [List.foldl_cons]
    obtain ⟨ih1, ih2, ih3⟩ := ih hnd' (pairStepLow r i acc j)
    have hstep2 : ∀ x y, (pairStepLow r i acc j).2.visited_position_pairs x y =
        if x = j ∧ y = i then
          insert (r.state.getD j 0, r.state.getD i 0) (acc.2.visited_position_pairs j i)
        else acc.2.visited_position_pairs x y := by
      intro x y
      simp only [pairStepLow]
      rw [updateVPP_vpp]
    have hstep1 : (pairStepLow r i acc j).1 =
        if (r.state.getD j 0, r.state.getD i 0) ∉ acc.2.visited_position_pairs j i ∧ acc.1 > 2
        then 2 else acc.1 := rfl
    have hsets : ∀ j' ∈ js, (pairStepLow r i acc j).2.visited_position_pairs j' i =
        acc.2.visited_position_pairs j' i := by
      intro j' hj'
      rw [hstep2]
      exact if_neg (fun (hc : j' = j ∧ _ = i) => hjnot (hc.1 ▸ hj'))
    refine ⟨by rw [ih1]; rfl, ?_, ?_⟩
    · intro x y
      rw [ih2 x y, hstep2 x y]
      by_cases hy : y = i
      · subst hy
        by_cases hxj : x = j
        · subst hxj
          simp [hjnot, List.mem_cons]
        · by_cases hxs : x ∈ js
          · simp [hxs, hxj, List.mem_cons]
          · simp [hxs, hxj, List.mem_cons]
      · simp [hy]
    · rw [ih3]
      by_cases hnov : acc.1 > 2
      · by_cases hnew :
            (r.state.getD j 0, r.state.getD i 0) ∉ acc.2.visited_position_pairs j i
        · have hs1 : (pairStepLow r i acc j).1 = 2 := by
            rw [hstep1, if_pos ⟨hnew, hnov⟩]
          rw [hs1, if_neg (fun (hc : _ ∧ 2 > 2) => absurd hc.2 (by omega)),
            if_pos ⟨⟨j, List.mem_cons_self _ _, hnew⟩, hnov⟩]
        · have hs1 : (pairStepLow r i acc j).1 = acc.1 := by
            rw [hstep1, if_neg (fun hc => hnew hc.1)]
          rw [hs1]
          by_cases hex : ∃ j' ∈ js,
              (r.state.getD j' 0, r.state.getD i 0) ∉ acc.2.visited_position_pairs j' i
          · obtain ⟨j', hj'1, hj'2⟩ := hex
            rw [if_pos ⟨⟨j', hj'1, by rw [hsets j' hj'1]; exact hj'2⟩, hnov⟩,
              if_pos ⟨⟨j', List.mem_cons_of_mem _ hj'1, hj'2⟩, hnov⟩]
          · rw [if_neg, if_neg]
            · rintro ⟨⟨j', hj'1, hj'2⟩, _⟩
              rcases List.mem_cons.mp hj'1 with rfl | hj'1
              · exact hnew hj'2
              · exact hex ⟨j', hj'1, hj'2⟩
            · rintro ⟨⟨j', hj'1, hj'2⟩, _⟩
              rw [hsets j' hj'1] at hj'2
              exact hex ⟨j', hj'1, hj'2⟩
      · have hs1 : (pairStepLow r i acc j).1 = acc.1 := by
          rw [hstep1, if_neg (fun hc => hnov hc.2)]
        rw [hs1, if_neg (fun hc => hnov hc.2), if_neg (fun hc => hnov hc.2)]

/-- Effect of the second pair loop (`i < j`) on the novelty accumulator. -/
theorem pairFoldHigh_spec (r : RelativeState) (i : ℕ) :
    ∀ (js : List ℕ), js.Nodup → ∀ (acc : ℕ × NoveltyState),
      ((js.foldl (pairStepHigh r i) acc).2.visited_positions = acc.2.visited_positions) ∧
      (∀ x y, (js.foldl (pairStepHigh r i) acc).2.visited_position_pairs x y =
        if x = i ∧ y ∈ js then
          insert (r.state.getD i 0, r.state.getD y 0) (acc.2.visited_position_pairs x y)
        else acc.2.visited_position_pairs x y) ∧
      ((js.foldl (pairStepHigh r i) acc).1 =
        if (∃ j ∈ js, (r.state.getD i 0, r.state.getD j 0) ∉ acc.2.visited_position_pairs i j)
            ∧ acc.1 > 2 then 2 else acc.1) := by
  intro js
  induction js with
  | nil =>
    intro _ acc
    refine ⟨rfl, fun x y => by simp, by simp⟩
  | cons j js ih =>
    intro hnd acc
    have hjnot : j ∉ js := (List.nodup_cons.mp hnd).1
    have hnd' : js.Nodup := (List.nodup_cons.mp hnd).2
    rw [List.foldl_cons]
    obtain ⟨ih1, ih2, ih3⟩ := ih hnd' (pairStepHigh r i acc j)
    have hstep2 : ∀ x y, (pairStepHigh r i acc j).2.visited_position_pairs x y =
        if x = i ∧ y = j then
          insert (r.state.getD i 0, r.state.getD j 0) (acc.2.visited_position_pairs i j)
        else acc.2.visited_position_pairs x y := by
      intro x y
      simp only [pairStepHigh]
      rw [updateVPP_vpp]
    have hstep1 : (pairStepHigh r i acc j).1 =
        if (r.state.getD i 0, r.state.getD j 0) ∉ acc.2.visited_position_pairs i j ∧ acc.1 > 2
        then 2 else acc.1 := rfl
    have hsets : ∀ j' ∈ js, (pairStepHigh r i acc j).2.visited_position_pairs i j' =
        acc.2.visited_position_pairs i j' := by
      intro j' hj'
      rw [hstep2]
      exact if_neg (fun (hc : _ = i ∧ j' = j) => hjnot (hc.2 ▸ hj'))
    refine ⟨by rw [ih1]; rfl, ?_, ?_⟩
    · intro x y
      rw [ih2 x y, hstep2 x y]
      by_cases hx : x = i
      · subst hx
        by_cases hyj : y = j
        · subst hyj
          simp [hjnot, List.mem_cons]
        · by_cases hys : y ∈ js
          · simp [hys, hyj, List.mem_cons]
          · simp [hys, hyj, List.mem_cons]
      · simp [hx]
    · rw [ih3]
      by_cases hnov : acc.1 > 2
      · by_cases hnew :
            (r.state.getD i 0, r.state.getD j 0) ∉ acc.2.visited_position_pairs i j
        · have hs1 : (pairStepHigh r i acc j).1 = 2 := by
            rw [hstep1, if_pos ⟨hnew, hnov⟩]
          rw [hs1, if_neg (fun (hc : _ ∧ 2 > 2) => absurd hc.2 (by omega)),
            if_pos ⟨⟨j, List.mem_cons_self _ _, hnew⟩, hnov⟩]
        · have hs1 : (pairStepHigh r i acc j).1 = acc.1 := by
            rw [hstep1, if_neg (fun hc => hnew hc.1)]
          rw [hs1]
          by_cases hex : ∃ j' ∈ js,
              (r.state.getD i 0, r.state.getD j' 0) ∉ acc.2.visited_position_pairs i j'
          · obtain ⟨j', hj'1, hj'2⟩ := hex
            rw [if_pos ⟨⟨j', hj'1, by rw [hsets j' hj'1]; exact hj'2⟩, hnov⟩,
              if_pos ⟨⟨j', List.mem_cons_of_mem _ hj'1, hj'2⟩, hnov⟩]
          · rw [if_neg, if_neg]
            · rintro ⟨⟨j', hj'1, hj'2⟩, _⟩
              rcases List.mem_cons.mp hj'1 with rfl | hj'1
              · exact hnew hj'2
              · exact hex ⟨j', hj'1, hj'2⟩
            · rintro ⟨⟨j', hj'1, hj'2⟩, _⟩
              rw [hsets j' hj'1] at hj'2
              exact hex ⟨j', hj'1, hj'2⟩
      · have hs1 : (pairStepHigh r i acc j).1 = acc.1 := by
          rw [hstep1, if_neg (fun hc => hnov hc.2)]
        rw [hs1, if_neg (fun hc => hnov hc.2), if_neg (fun hc => hnov hc.2)]

open Classical in
/-- Effect of one full iteration of the moved-index loop of
`NoveltyHeuristic::estimate_cost_to_goal` on the accumulator: the processed
index's position is recorded, all index-ordered pairs involving it are
recorded, and the novelty drops to 1 on a new position, else to
`min novelty 2` on a new pair. -/
theorem noveltyVisit_spec (size : ℕ) (r : RelativeState) (i : ℕ) (hi : i < size)
    (acc : ℕ × NoveltyState) (hnov : acc.1 = 1 ∨ acc.1 = 2 ∨ acc.1 = 3) :
    (∀ x, (noveltyVisit size r acc i).2.visited_positions x =
      if x = i then insert (r.state.getD i 0) (acc.2.visited_positions i)
      else acc.2.visited_positions x) ∧
    (∀ x y, (noveltyVisit size r acc i).2.visited_position_pairs x y =
      if x < y ∧ y < size ∧ (x = i ∨ y = i) then
        insert (r.state.getD x 0, r.state.getD y 0) (acc.2.visited_position_pairs x y)
      else acc.2.visited_position_pairs x y) ∧
    ((noveltyVisit size r acc i).1 =
      if r.state.getD i 0 ∉ acc.2.visited_positions i then 1
      else if ∃ x y, x < y ∧ y < size ∧ (x = i ∨ y = i) ∧
          (r.state.getD x 0, r.state.getD y 0) ∉ acc.2.visited_position_pairs x y then
        min acc.1 2
      else acc.1) := by
  have hndLow : (List.range i).Nodup := List.nodup_range i
  have hndHigh : ((List.range size).drop (i + 1)).Nodup :=
    (List.drop_sublist _ _).nodup (List.nodup_range size)
  obtain ⟨l1, l2, l3⟩ := pairFoldLow_spec r i (List.range i) hndLow
    ((if r.state.getD i 0 ∉ acc.2.visited_positions i then 1 else acc.1),
      updateVP acc.2 i (r.state.getD i 0))
  obtain ⟨h1, h2, h3⟩ := pairFoldHigh_spec r i ((List.range size).drop (i + 1)) hndHigh
    ((List.range i).foldl (pairStepLow r i)
      ((if r.state.getD i 0 ∉ acc.2.visited_positions i then 1 else acc.1),
        updateVP acc.2 i (r.state.getD i 0)))
  simp only [updateVP_vpp] at l2 l3
  have hres : noveltyVisit size r acc i =
      ((List.range size).drop (i + 1)).foldl (pairStepHigh r i)
        ((List.range i).foldl (pairStepLow r i)
          ((if r.state.getD i 0 ∉ acc.2.visited_positions i then 1 else acc.1),
            updateVP acc.2 i (r.state.getD i 0))) := rfl
  have hmidvpp : ∀ j ∈ (List.range size).drop (i + 1),
      ((List.range i).foldl (pairStepLow r i)
        ((if r.state.getD i 0 ∉ acc.2.visited_positions i then 1 else acc.1),
          updateVP acc.2 i (r.state.getD i 0))).2.visited_position_pairs i j =
      acc.2.visited_position_pairs i j := by
    intro j _
    rw [l2 i j, if_neg (fun (hc : i ∈ List.range i ∧ _ = i) =>
      absurd (List.mem_range.mp hc.1) (lt_irrefl i))]
  refine ⟨?_, ?_, ?_⟩
  · intro x
    rw [hres, h1, l1]
    exact updateVP_vp acc.2 i (r.state.getD i 0) x
  · intro x y
    rw [hres, h2 x y, l2 x y]
    by_cases hCH : x = i ∧ y ∈ (List.range size).drop (i + 1)
    · obtain ⟨rfl, hy⟩ := hCH
      have hy' := (mem_range_drop _ _ _).mp hy
      rw [if_pos ⟨rfl, hy⟩,
        if_neg (fun (hc : x ∈ List.range x ∧ _ = x) =>
          absurd (List.mem_range.mp hc.1) (lt_irrefl x)),
        if_pos (show x < y ∧ y < size ∧ (x = x ∨ y = x) from ⟨by omega, by omega, Or.inl rfl⟩)]
    · rw [if_neg hCH]
      by_cases hCL : x ∈ List.range i ∧ y = i
      · obtain ⟨hx, rfl⟩ := hCL
        have hx' := List.mem_range.mp hx
        rw [if_pos ⟨hx, rfl⟩, if_pos (show x < y ∧ y < size ∧ (x = y ∨ y = y) from
          ⟨hx', hi, Or.inr rfl⟩)]
      · rw [if_neg hCL, if_neg]
        rintro ⟨hxy, hys, hxi | hyi⟩
        · subst hxi
          exact hCH ⟨rfl, (mem_range_drop _ _ _).mpr ⟨by omega, hys⟩⟩
        · subst hyi
          exact hCL ⟨List.mem_range.mpr hxy, rfl⟩
  · have hBsplit : (∃ x y, x < y ∧ y < size ∧ (x = i ∨ y = i) ∧
        (r.state.getD x 0, r.state.getD y 0) ∉ acc.2.visited_position_pairs x y) ↔
        ((∃ j ∈ List.range i,
            (r.state.getD j 0, r.state.getD i 0) ∉ acc.2.visited_position_pairs j i) ∨
         (∃ j ∈ (List.range size).drop (i + 1),
            (r.state.getD i 0, r.state.getD j 0) ∉ acc.2.visited_position_pairs i j)) := by
      constructor
      · rintro ⟨x, y, hxy, hys, hxi | hyi, hmem⟩
        · subst hxi
          exact Or.inr ⟨y, (mem_range_drop _ _ _).mpr ⟨by omega, hys⟩, hmem⟩
        · subst hyi
          exact Or.inl ⟨x, List.mem_range.mpr hxy, hmem⟩
      · rintro (⟨j, hj, hmem⟩ | ⟨j, hj, hmem⟩)
        · exact ⟨j, i, List.mem_range.mp hj, hi, Or.inr rfl, hmem⟩
        · have hj' := (mem_range_drop _ _ _).mp hj
          exact ⟨i, j, by omega, by omega, Or.inl rfl, hmem⟩
    generalize hn : (if r.state.getD i 0 ∉ acc.2.visited_positions i then 1 else acc.1) = n
    have hres2 : noveltyVisit size r acc i =
        ((List.range size).drop (i + 1)).foldl (pairStepHigh r i)
          ((List.range i).foldl (pairStepLow r i)
            (n, updateVP acc.2 i (r.state.getD i 0))) := by
      rw [← hn]
      exact rfl
    obtain ⟨_, m2, m3⟩ := pairFoldLow_spec r i (List.range i) hndLow
      (n, updateVP acc.2 i (r.state.getD i 0))
    obtain ⟨_, _, g3⟩ := pairFoldHigh_spec r i ((List.range size).drop (i + 1)) hndHigh
      ((List.range i).foldl (pairStepLow r i) (n, updateVP acc.2 i (r.state.getD i 0)))
    simp only [updateVP_vpp] at m2 m3
    have hmidn : ∀ j ∈ (List.range size).drop (i + 1),
        ((List.range i).foldl (pairStepLow r i)
          (n, updateVP acc.2 i (r.state.getD i 0))).2.visited_position_pairs i j =
        acc.2.visited_position_pairs i j := by
      intro j _
      rw [m2 i j, if_neg (fun (hc : i ∈ List.range i ∧ _ = i) =>
        absurd (List.mem_range.mp hc.1) (lt_irrefl i))]
    have hhighiff : (∃ j ∈ (List.range size).drop (i + 1),
        (r.state.getD i 0, r.state.getD j 0) ∉
          ((List.range i).foldl (pairStepLow r i)
            (n, updateVP acc.2 i (r.state.getD i 0))).2.visited_position_pairs i j) ↔
        (∃ j ∈ (List.range size).drop (i + 1),
          (r.state.getD i 0, r.state.getD j 0) ∉ acc.2.visited_position_pairs i j) := by
      constructor
      · rintro ⟨j, hj, hmem⟩
        rw [hmidn j hj] at hmem
        exact ⟨j, hj, hmem⟩
      · rintro ⟨j, hj, hmem⟩
        refine ⟨j, hj, ?_⟩
        rw [hmidn j hj]
        exact hmem
    rw [hres2, g3, m3]
    by_cases hA : r.state.getD i 0 ∉ acc.2.visited_positions i
    · have hn1 : n = 1 := by rw [← hn, if_pos hA]
      subst hn1
      rw [if_neg (fun (hc : _ ∧ (1 : ℕ) > 2) => absurd hc.2 (by omega))]
      rw [if_neg (fun (hc : _ ∧ (1 : ℕ) > 2) => absurd hc.2 (by omega))]
      rw [if_pos hA]
    · have hn1 : n = acc.1 := by rw [← hn, if_neg hA]
      subst hn1
      rw [if_neg hA]
      rcases hnov with hv | hv | hv
      · rw [if_neg (fun (hc : _ ∧ acc.1 > 2) => absurd hc.2 (by omega)),
          if_neg (fun (hc : _ ∧ acc.1 > 2) => absurd hc.2 (by omega))]
        have hmin : min acc.1 2 = acc.1 := by omega
        rw [hmin, ite_self]
      · rw [if_neg (fun (hc : _ ∧ acc.1 > 2) => absurd hc.2 (by omega)),
          if_neg (fun (hc : _ ∧ acc.1 > 2) => absurd hc.2 (by omega))]
        have hmin : min acc.1 2 = acc.1 := by omega
        rw [hmin, ite_self]
      · have hmin : min acc.1 2 = 2 := by omega
        rw [hmin]
        by_cases hBlow : ∃ j ∈ List.range i,
            (r.state.getD j 0, r.state.getD i 0) ∉ acc.2.visited_position_pairs j i
        · have hlowpos : (∃ j ∈ List.range i,
              (r.state.getD j 0, r.state.getD i 0) ∉ acc.2.visited_position_pairs j i) ∧
              acc.1 > 2 := ⟨hBlow, by omega⟩
          rw [if_pos hlowpos]
          rw [if_neg (fun (hc : _ ∧ (2 : ℕ) > 2) => absurd hc.2 (by omega))]
          rw [if_pos (hBsplit.mpr (Or.inl hBlow))]
        · rw [if_neg (fun (hc : _ ∧ acc.1 > 2) => hBlow hc.1)]
          by_cases hBhigh : ∃ j ∈ (List.range size).drop (i + 1),
              (r.state.getD i 0, r.state.getD j 0) ∉ acc.2.visited_position_pairs i j
          · have hhighpos : (∃ j ∈ (List.range size).drop (i + 1),
                (r.state.getD i 0, r.state.getD j 0) ∉
                  ((List.range i).foldl (pairStepLow r i)
                    (acc.1, updateVP acc.2 i (r.state.getD i 0))).2.visited_position_pairs i j) ∧
                acc.1 > 2 := ⟨hhighiff.mpr hBhigh, by omega⟩
            rw [if_pos hhighpos]
            rw [if_pos (hBsplit.mpr (Or.inr hBhigh))]
          · rw [if_neg (fun (hc : _ ∧ acc.1 > 2) => hBhigh (hhighiff.mp hc.1))]
            rw [if_neg (fun hB => (hBsplit.mp hB).elim hBlow hBhigh)]

open Classical in
/-- Full characterization of the optimized novelty estimator relative to the
heuristic state it starts from: the returned novelty is 1 exactly when some
moved index is at a position not yet in its visited set, else 2 exactly when
some index-ordered pair involving a moved index is not yet in its visited
set, else 3 (starting from `nov₀` = 3; stated for any starting novelty in
`{1, 2, 3}`); and the updated visited sets gain exactly the singleton
positions of moved indices and the index-ordered pairs involving them. -/
theorem noveltyFold_spec (size : ℕ) (r : RelativeState) :
    ∀ (moved : List ℕ), (∀ i ∈ moved, i < size) →
    ∀ (nov₀ : ℕ) (ns₀ : NoveltyState), (nov₀ = 1 ∨ nov₀ = 2 ∨ nov₀ = 3) →
      (∀ x, (moved.foldl (noveltyVisit size r) (nov₀, ns₀)).2.visited_positions x =
        if x ∈ moved then insert (r.state.getD x 0) (ns₀.visited_positions x)
        else ns₀.visited_positions x) ∧
      (∀ x y, (moved.foldl (noveltyVisit size r) (nov₀, ns₀)).2.visited_position_pairs x y =
        if x < y ∧ y < size ∧ (x ∈ moved ∨ y ∈ moved) then
          insert (r.state.getD x 0, r.state.getD y 0) (ns₀.visited_position_pairs x y)
        else ns₀.visited_position_pairs x y) ∧
      ((moved.foldl (noveltyVisit size r) (nov₀, ns₀)).1 =
        if ∃ i ∈ moved, r.state.getD i 0 ∉ ns₀.visited_positions i then 1
        else if ∃ x y, x < y ∧ y < size ∧ (x ∈ moved ∨ y ∈ moved) ∧
            (r.state.getD x 0, r.state.getD y 0) ∉ ns₀.visited_position_pairs x y then
          min nov₀ 2
        else nov₀) := by
  intro moved
  induction moved with
  | nil =>
    intro _ nov₀ ns₀ _
    refine ⟨fun x => by simp, fun x y => by simp, by simp⟩
  | cons i rest ih =>
    intro hvalid nov₀ ns₀ hnov
    have hi : i < size := hvalid i (List.mem_cons_self _ _)
    have hrest : ∀ j ∈ rest, j < size := fun j hj => hvalid j (List.mem_cons_of_mem _ hj)
    obtain ⟨v1, v2, v3⟩ := noveltyVisit_spec size r i hi (nov₀, ns₀) hnov
    have hsv : (noveltyVisit size r (nov₀, ns₀) i).1 = 1 ∨
        (noveltyVisit size r (nov₀, ns₀) i).1 = 2 ∨
        (noveltyVisit size r (nov₀, ns₀) i).1 = 3 := by
      rw [v3]
      split_ifs <;> omega
    obtain ⟨ih1, ih2, ih3⟩ := ih hrest (noveltyVisit size r (nov₀, ns₀) i).1
      (noveltyVisit size r (nov₀, ns₀) i).2 hsv
    simp only [Prod.mk.eta] at ih1 ih2 ih3
    simp only [List.foldl_cons]
    refine ⟨?_, ?_, ?_⟩
    · intro x
      rw [ih1 x, v1 x]
      by_cases hxr : x ∈ rest
      · rw [if_pos hxr, if_pos (List.mem_cons_of_mem _ hxr)]
        by_cases hxi : x = i
        · subst hxi
          rw [if_pos rfl, Finset.insert_idem]
        · rw [if_neg hxi]
      · rw [if_neg hxr]
        by_cases hxi : x = i
        · subst hxi
          rw [if_pos rfl, if_pos (List.mem_cons_self _ _)]
        · rw [if_neg hxi, if_neg (fun hc => by
            rcases List.mem_cons.mp hc with hc | hc
            · exact hxi hc
            · exact hxr hc)]
    · intro x y
      rw [ih2 x y, v2 x y]
      by_cases hc1 : x < y ∧ y < size
      · by_cases hA : x = i ∨ y = i
        · have hposA : x < y ∧ y < size ∧ (x = i ∨ y = i) := ⟨hc1.1, hc1.2, hA⟩
          rw [if_pos hposA]
          have hAc : x ∈ i :: rest ∨ y ∈ i :: rest := by
            rcases hA with rfl | rfl
            · exact Or.inl (List.mem_cons_self _ _)
            · exact Or.inr (List.mem_cons_self _ _)
          have hposAc : x < y ∧ y < size ∧ (x ∈ i :: rest ∨ y ∈ i :: rest) :=
            ⟨hc1.1, hc1.2, hAc⟩
          by_cases hB : x ∈ rest ∨ y ∈ rest
          · have hposB : x < y ∧ y < size ∧ (x ∈ rest ∨ y ∈ rest) := ⟨hc1.1, hc1.2, hB⟩
            rw [if_pos hposB, Finset.insert_idem, if_pos hposAc]
          · rw [if_neg (fun (hc : _ ∧ _ ∧ (x ∈ rest ∨ y ∈ rest)) => hB hc.2.2),
              if_pos hposAc]
        · rw [if_neg (fun (hc : _ ∧ _ ∧ (x = i ∨ y = i)) => hA hc.2.2)]
          by_cases hB : x ∈ rest ∨ y ∈ rest
          · have hBc : x ∈ i :: rest ∨ y ∈ i :: rest := by
              rcases hB with h | h
              · exact Or.inl (List.mem_cons_of_mem _ h)
              · exact Or.inr (List.mem_cons_of_mem _ h)
            have hposB : x < y ∧ y < size ∧ (x ∈ rest ∨ y ∈ rest) := ⟨hc1.1, hc1.2, hB⟩
            have hposBc : x < y ∧ y < size ∧ (x ∈ i :: rest ∨ y ∈ i :: rest) :=
              ⟨hc1.1, hc1.2, hBc⟩
            rw [if_pos hposB, if_pos hposBc]
          · rw [if_neg (fun (hc : _ ∧ _ ∧ (x ∈ rest ∨ y ∈ rest)) => hB hc.2.2),
              if_neg (fun (hc : _ ∧ _ ∧ (x ∈ i :: rest ∨ y ∈ i :: rest)) => by
                rcases hc.2.2 with hc' | hc'
                · rcases List.mem_cons.mp hc' with hc'' | hc''
                  · exact hA (Or.inl hc'')
                  · exact hB (Or.inl hc'')
                · rcases List.mem_cons.mp hc' with hc'' | hc''
                  · exact hA (Or.inr hc'')
                  · exact hB (Or.inr hc''))]
      · rw [if_neg (fun (hc : x < y ∧ y < size ∧ _) => hc1 ⟨hc.1, hc.2.1⟩),
          if_neg (fun (hc : x < y ∧ y < size ∧ _) => hc1 ⟨hc.1, hc.2.1⟩),
          if_neg (fun (hc : x < y ∧ y < size ∧ _) => hc1 ⟨hc.1, hc.2.1⟩)]
    · rw [ih3]
      have hstvp : ∀ x, (noveltyVisit size r (nov₀, ns₀) i).2.visited_positions x =
          if x = i then insert (r.state.getD i 0) (ns₀.visited_positions i)
          else ns₀.visited_positions x := v1
      have hARiff : (∃ i' ∈ rest,
          r.state.getD i' 0 ∉ (noveltyVisit size r (nov₀, ns₀) i).2.visited_positions i') ↔
          (∃ i' ∈ rest, i' ≠ i ∧ r.state.getD i' 0 ∉ ns₀.visited_positions i') := by
        constructor
        · rintro ⟨i', hi', hmem⟩
          rw [hstvp i'] at hmem
          by_cases hii : i' = i
          · rw [if_pos hii] at hmem
            subst hii
            exact absurd (Finset.mem_insert_self _ _) hmem
          · rw [if_neg hii] at hmem
            exact ⟨i', hi', hii, hmem⟩
        · rintro ⟨i', hi', hii, hmem⟩
          refine ⟨i', hi', ?_⟩
          rw [hstvp i', if_neg hii]
          exact hmem
      have hBRiff : (∃ x y, x < y ∧ y < size ∧ (x ∈ rest ∨ y ∈ rest) ∧
          (r.state.getD x 0, r.state.getD y 0) ∉
            (noveltyVisit size r (nov₀, ns₀) i).2.visited_position_pairs x y) ↔
          (∃ x y, x < y ∧ y < size ∧ (x ∈ rest ∨ y ∈ rest) ∧ ¬(x = i ∨ y = i) ∧
            (r.state.getD x 0, r.state.getD y 0) ∉ ns₀.visited_position_pairs x y) := by
        constructor
        · rintro ⟨x, y, hxy, hys, hB, hmem⟩
          rw [v2 x y] at hmem
          by_cases hA : x = i ∨ y = i
          · rw [if_pos ⟨hxy, hys, hA⟩] at hmem
            exact absurd (Finset.mem_insert_self _ _) hmem
          · rw [if_neg (fun (hc : _ ∧ _ ∧ (x = i ∨ y = i)) => hA hc.2.2)] at hmem
            exact ⟨x, y, hxy, hys, hB, hA, hmem⟩
        · rintro ⟨x, y, hxy, hys, hB, hA, hmem⟩
          refine ⟨x, y, hxy, hys, hB, ?_⟩
          rw [v2 x y, if_neg (fun (hc : _ ∧ _ ∧ (x = i ∨ y = i)) => hA hc.2.2)]
          exact hmem
      by_cases hAR : ∃ i' ∈ rest,
          r.state.getD i' 0 ∉ (noveltyVisit size r (nov₀, ns₀) i).2.visited_positions i'
      · rw [if_pos hAR]
        obtain ⟨i', hi', _, hmem⟩ := hARiff.mp hAR
        rw [if_pos ⟨i', List.mem_cons_of_mem _ hi', hmem⟩]
      · rw [if_neg hAR]
        by_cases hAi : r.state.getD i 0 ∉ ns₀.visited_positions i
        · have hst1 : (noveltyVisit size r (nov₀, ns₀) i).1 = 1 := by
            rw [v3, if_pos hAi]
          rw [hst1]
          have hm1 : min 1 2 = 1 := rfl
          rw [hm1, ite_self, if_pos ⟨i, List.mem_cons_self _ _, hAi⟩]
        · have hAcons : ¬∃ i' ∈ i :: rest,
              r.state.getD i' 0 ∉ ns₀.visited_positions i' := by
            rintro ⟨i', hi', hmem⟩
            rcases List.mem_cons.mp hi' with rfl | hi''
            · exact hAi hmem
            · exact hAR (hARiff.mpr ⟨i', hi'', fun hii => hAi (hii ▸ hmem), hmem⟩)
          rw [if_neg hAcons]
          by_cases hBi : ∃ x y, x < y ∧ y < size ∧ (x = i ∨ y = i) ∧
              (r.state.getD x 0, r.state.getD y 0) ∉ ns₀.visited_position_pairs x y
          · have hst1 : (noveltyVisit size r (nov₀, ns₀) i).1 = min nov₀ 2 := by
              rw [v3, if_neg hAi, if_pos hBi]
            rw [hst1]
            have hmm : min (min nov₀ 2) 2 = min nov₀ 2 := by omega
            rw [hmm, ite_self]
            obtain ⟨x, y, hxy, hys, hA, hmem⟩ := hBi
            have hAc : x ∈ i :: rest ∨ y ∈ i :: rest := by
              rcases hA with rfl | rfl
              · exact Or.inl (List.mem_cons_self _ _)
              · exact Or.inr (List.mem_cons_self _ _)
            rw [if_pos ⟨x, y, hxy, hys, hAc, hmem⟩]
          · have hst1 : (noveltyVisit size r (nov₀, ns₀) i).1 = nov₀ := by
              rw [v3, if_neg hAi, if_neg hBi]
            rw [hst1]
            by_cases hBR : ∃ x y, x < y ∧ y < size ∧ (x ∈ rest ∨ y ∈ rest) ∧
                (r.state.getD x 0, r.state.getD y 0) ∉
                  (noveltyVisit size r (nov₀, ns₀) i).2.visited_position_pairs x y
            · rw [if_pos hBR]
              obtain ⟨x, y, hxy, hys, hB, _, hmem⟩ := hBRiff.mp hBR
              have hBc : x ∈ i :: rest ∨ y ∈ i :: rest := by
                rcases hB with h | h
                · exact Or.inl (List.mem_cons_of_mem _ h)
                · exact Or.inr (List.mem_cons_of_mem _ h)
              rw [if_pos ⟨x, y, hxy, hys, hBc, hmem⟩]
            · rw [if_neg hBR, if_neg]
              rintro ⟨x, y, hxy, hys, hBc, hmem⟩
              have : (x = i ∨ y = i) ∨ (x ∈ rest ∨ y ∈ rest) := by
                rcases hBc with h | h
                · rcases List.mem_cons.mp h with h' | h'
                  · exact Or.inl (Or.inl h')
                  · exact Or.inr (Or.inl h')
                · rcases List.mem_cons.mp h with h' | h'
                  · exact Or.inl (Or.inr h')
                  · exact Or.inr (Or.inr h')
              rcases this with hA | hB
              · exact hBi ⟨x, y, hxy, hys, hA, hmem⟩
              · exact hBR (hBRiff.mpr ⟨x, y, hxy, hys, hB,
                  fun hA => hBi ⟨x, y, hxy, hys, hA, hmem⟩, hmem⟩)

open Classical in
/-- **C5.** For every `RelativeState` (with valid moved indices) and every
heuristic state, `estimate_cost_to_goal` returns a value in `{1, 2, 3}`: 1 if
inserting `state[i]` into `visited_positions[i]` is new for some moved index
`i`; else 2 if inserting the index-ordered pair
`(state[min i j], state[max i j])` into `visited_pairs[min][max]` is new for
some moved `i` and some other index `j ≠ i`; else 3. "New" is relative to the
visited sets as they stand before the call. -/
theorem noveltyEstimate_values (size : ℕ) (ns : NoveltyState) (r : RelativeState)
    (hvalid : ∀ i ∈ r.moved_object_indices, i < size) :
    ((noveltyEstimate size ns r).1 = 1 ∨ (noveltyEstimate size ns r).1 = 2 ∨
      (noveltyEstimate size ns r).1 = 3) ∧
    ((noveltyEstimate size ns r).1 = 1 ↔
      ∃ i ∈ r.moved_object_indices, r.state.getD i 0 ∉ ns.visited_positions i) ∧
    ((noveltyEstimate size ns r).1 = 2 ↔
      ¬(∃ i ∈ r.moved_object_indices, r.state.getD i 0 ∉ ns.visited_positions i) ∧
      (∃ i ∈ r.moved_object_indices, ∃ j, j < size ∧ j ≠ i ∧
        (r.state.getD (min i j) 0, r.state.getD (max i j) 0) ∉
          ns.visited_position_pairs (min i j) (max i j))) ∧
    ((noveltyEstimate size ns r).1 = 3 ↔
      ¬(∃ i ∈ r.moved_object_indices, r.state.getD i 0 ∉ ns.visited_positions i) ∧
      ¬(∃ i ∈ r.moved_object_indices, ∃ j, j < size ∧ j ≠ i ∧
        (r.state.getD (min i j) 0, r.state.getD (max i j) 0) ∉
          ns.visited_position_pairs (min i j) (max i j))) := by
  obtain ⟨_, _, hval⟩ := noveltyFold_spec size r r.moved_object_indices hvalid 3 ns
    (Or.inr (Or.inr rfl))
  have hval' : (noveltyEstimate size ns r).1 =
      if ∃ i ∈ r.moved_object_indices, r.state.getD i 0 ∉ ns.visited_positions i then 1
      else if ∃ x y, x < y ∧ y < size ∧
          (x ∈ r.moved_object_indices ∨ y ∈ r.moved_object_indices) ∧
          (r.state.getD x 0, r.state.getD y 0) ∉ ns.visited_position_pairs x y then 2
      else 3 := hval
  have hBconv : (∃ x y, x < y ∧ y < size ∧
      (x ∈ r.moved_object_indices ∨ y ∈ r.moved_object_indices) ∧
      (r.state.getD x 0, r.state.getD y 0) ∉ ns.visited_position_pairs x y) ↔
      (∃ i ∈ r.moved_object_indices, ∃ j, j < size ∧ j ≠ i ∧
        (r.state.getD (min i j) 0, r.state.getD (max i j) 0) ∉
          ns.visited_position_pairs (min i j) (max i j)) := by
    constructor
    · rintro ⟨x, y, hxy, hys, hx | hy, hmem⟩
      · refine ⟨x, hx, y, hys, by omega, ?_⟩
        rw [min_eq_left (by omega), max_eq_right (by omega)]
        exact hmem
      · refine ⟨y, hy, x, by omega, by omega, ?_⟩
        rw [min_comm, min_eq_left (by omega), max_comm, max_eq_right (by omega)]
        exact hmem
    · rintro ⟨i, hi, j, hjs, hji, hmem⟩
      rcases lt_or_gt_of_ne (Ne.symm hji) with hij | hij
      · refine ⟨i, j, hij, hjs, Or.inl hi, ?_⟩
        rw [min_eq_left (by omega), max_eq_right (by omega)] at hmem
        exact hmem
      · refine ⟨j, i, hij, hvalid i hi, Or.inr hi, ?_⟩
        rw [min_comm, min_eq_left (by omega), max_comm, max_eq_right (by omega)] at hmem
        exact hmem
  rw [hval']
  by_cases hA : ∃ i ∈ r.moved_object_indices, r.state.getD i 0 ∉ ns.visited_positions i
  · rw [if_pos hA]
    exact ⟨Or.inl rfl, iff_of_true rfl hA,
      iff_of_false (by omega) (fun hc => hc.1 hA),
      iff_of_false (by omega) (fun hc => hc.1 hA)⟩
  · rw [if_neg hA]
    by_cases hB : ∃ x y, x < y ∧ y < size ∧
        (x ∈ r.moved_object_indices ∨ y ∈ r.moved_object_indices) ∧
        (r.state.getD x 0, r.state.getD y 0) ∉ ns.visited_position_pairs x y
    · rw [if_pos hB]
      exact ⟨Or.inr (Or.inl rfl), iff_of_false (by omega) hA,
        iff_of_true rfl ⟨hA, hBconv.mp hB⟩,
        iff_of_false (by omega) (fun hc => hc.2 (hBconv.mp hB))⟩
    · rw [if_neg hB]
      exact ⟨Or.inr (Or.inr rfl), iff_of_false (by omega) hA,
        iff_of_false (by omega) (fun hc => hB (hBconv.mpr hc.2)),
        iff_of_true rfl ⟨hA, fun hb => hB (hBconv.mpr hb)⟩⟩

/-- Witness for C5 at a concrete input: one object, empty history, index 0
moved. -/
theorem noveltyEstimate_values_witness :
    ((noveltyEstimate 1 ⟨fun _ => ∅, fun _ _ => ∅⟩ ⟨[5], [0]⟩).1 = 1 ∨
      (noveltyEstimate 1 ⟨fun _ => ∅, fun _ _ => ∅⟩ ⟨[5], [0]⟩).1 = 2 ∨
      (noveltyEstimate 1 ⟨fun _ => ∅, fun _ _ => ∅⟩ ⟨[5], [0]⟩).1 = 3) ∧
    ((noveltyEstimate 1 ⟨fun _ => ∅, fun _ _ => ∅⟩ ⟨[5], [0]⟩).1 = 1 ↔
      ∃ i ∈ ([0] : List ℕ), (([5] : List Position).getD i 0) ∉
        (∅ : Finset Position)) := by
  have h := noveltyEstimate_values 1 ⟨fun _ => ∅, fun _ _ => ∅⟩ ⟨[5], [0]⟩
    (by intro i hi; simp at hi; omega)
  exact ⟨h.1, h.2.1⟩

/-- **C10.** For every `RelativeState` with an empty moved-index list, the
novelty estimator returns 3 and leaves every visited set unchanged, so all
subsequent estimates are as if the call had never happened. -/
theorem noveltyEstimate_empty_moved (size : ℕ) (ns : NoveltyState) (r : RelativeState)
    (h : r.moved_object_indices = []) :
    noveltyEstimate size ns r = (3, ns) ∧
    (∀ r', noveltyEstimate size (noveltyEstimate size ns r).2 r' =
      noveltyEstimate size ns r') := by
  have hmain : noveltyEstimate size ns r = (3, ns) := by
    unfold noveltyEstimate
    rw [h]
    rfl
  exact ⟨hmain, fun r' => by rw [hmain]⟩

/-- Witness for C10 at a concrete input. -/
theorem noveltyEstimate_empty_moved_witness :
    noveltyEstimate 2 ⟨fun _ => ∅, fun _ _ => ∅⟩ ⟨[5, 6], []⟩ =
      (3, ⟨fun _ => ∅, fun _ _ => ∅⟩) ∧
    noveltyEstimate 2 (noveltyEstimate 2 ⟨fun _ => ∅, fun _ _ => ∅⟩ ⟨[5, 6], []⟩).2
        ⟨[7, 8], [0, 1]⟩ =
      noveltyEstimate 2 ⟨fun _ => ∅, fun _ _ => ∅⟩ ⟨[7, 8], [0, 1]⟩ := by
  have h := noveltyEstimate_empty_moved 2 ⟨fun _ => ∅, fun _ _ => ∅⟩ ⟨[5, 6], []⟩ rfl
  exact ⟨h.1, h.2 ⟨[7, 8], [0, 1]⟩⟩

/-- The unoptimized baseline novelty estimator, following the spec's words
(§4.5): it scans **all** object indices rather than only the moved ones,
inserting every singleton position into `visited_positions` and every
index-ordered position pair into `visited_pairs`, and returns 1 if some
singleton insertion is new, else 2 if some pair insertion is new, else 3.
This is the specification-side definition of the refinement claim C6; it is
compared against `noveltyEstimate`, the optimized estimator embedded from
`novelty.cc`. -/
def noveltyEstimateBaseline (size : ℕ) (ns : NoveltyState) (r : RelativeState) :
    ℕ × NoveltyState :=
  (if (List.range size).any
        (fun i => decide (r.state.getD i 0 ∉ ns.visited_positions i)) then 1
   else if (List.range size).any (fun i => ((List.range size).drop (i + 1)).any
        (fun j => decide
          ((r.state.getD i 0, r.state.getD j 0) ∉ ns.visited_position_pairs i j))) then 2
   else 3,
   { visited_positions := fun i =>
       if i < size then insert (r.state.getD i 0) (ns.visited_positions i)
       else ns.visited_positions i,
     visited_position_pairs := fun i j =>
       if i < j ∧ j < size then
         insert (r.state.getD i 0, r.state.getD j 0) (ns.visited_position_pairs i j)
       else ns.visited_position_pairs i j })

/-- The sequence of values returned by the optimized novelty estimator on a
sequence of inputs, threading the heuristic state. -/
def runNovelty (size : ℕ) : NoveltyState → List RelativeState → List ℕ
  | _, [] => []
  | ns, r :: rs =>
    (noveltyEstimate size ns r).1 :: runNovelty size (noveltyEstimate size ns r).2 rs

/-- The sequence of values returned by the baseline estimator. -/
def runNoveltyBaseline (size : ℕ) : NoveltyState → List RelativeState → List ℕ
  | _, [] => []
  | ns, r :: rs =>
    (noveltyEstimateBaseline size ns r).1 ::
      runNoveltyBaseline size (noveltyEstimateBaseline size ns r).2 rs

/-- A call is *consistent* with the current heuristic state when its moved
indices are valid and every singleton position of an unmoved index, and every
index-ordered pair of two unmoved indices, is already in the corresponding
visited set. Calls produced by replaying transitions from estimated states
have this property: unmoved objects keep positions that were already
estimated. -/
def ConsistentCall (size : ℕ) (ns : NoveltyState) (r : RelativeState) : Prop :=
  (∀ i ∈ r.moved_object_indices, i < size) ∧
  (∀ i, i < size → i ∉ r.moved_object_indices →
    r.state.getD i 0 ∈ ns.visited_positions i) ∧
  (∀ y, y < size → ∀ x, x < y → x ∉ r.moved_object_indices →
    y ∉ r.moved_object_indices →
    (r.state.getD x 0, r.state.getD y 0) ∈ ns.visited_position_pairs x y)

/-- A sequence of calls is consistent when each call is consistent with the
state produced by the previous calls. -/
def ConsistentSeq (size : ℕ) : NoveltyState → List RelativeState → Prop
  | _, [] => True
  | ns, r :: rs => ConsistentCall size ns r ∧
      ConsistentSeq size (noveltyEstimate size ns r).2 rs

/-- **C6, counterexample.** The claim, quantified over *every* sequence of
`RelativeState` inputs, fails: on a first call whose moved-index list is
empty but whose state is fresh, the optimized estimator returns 3 while the
baseline (which scans all indices) returns 1. -/
theorem noveltyBaseline_differs :
    runNovelty 1 ⟨fun _ => ∅, fun _ _ => ∅⟩ [⟨[5], []⟩] ≠
      runNoveltyBaseline 1 ⟨fun _ => ∅, fun _ _ => ∅⟩ [⟨[5], []⟩] := by
  decide

open Classical in
/-- On a consistent call, the optimized and baseline estimators return the
same value and the same updated state. -/
theorem noveltyEstimate_eq_baseline_call (size : ℕ) (ns : NoveltyState)
    (r : RelativeState) (h : ConsistentCall size ns r) :
    noveltyEstimate size ns r = noveltyEstimateBaseline size ns r := by
  obtain ⟨hvalid, hsingle, hpair⟩ := h
  obtain ⟨f1p, f2p, f3p⟩ := noveltyFold_spec size r r.moved_object_indices hvalid 3 ns
    (Or.inr (Or.inr rfl))
  have f1 : ∀ x, (noveltyEstimate size ns r).2.visited_positions x =
      if x ∈ r.moved_object_indices then
        insert (r.state.getD x 0) (ns.visited_positions x)
      else ns.visited_positions x := f1p
  have f2 : ∀ x y, (noveltyEstimate size ns r).2.visited_position_pairs x y =
      if x < y ∧ y < size ∧ (x ∈ r.moved_object_indices ∨ y ∈ r.moved_object_indices) then
        insert (r.state.getD x 0, r.state.getD y 0) (ns.visited_position_pairs x y)
      else ns.visited_position_pairs x y := f2p
  have f3 : (noveltyEstimate size ns r).1 =
      if ∃ i ∈ r.moved_object_indices, r.state.getD i 0 ∉ ns.visited_positions i then 1
      else if ∃ x y, x < y ∧ y < size ∧
          (x ∈ r.moved_object_indices ∨ y ∈ r.moved_object_indices) ∧
          (r.state.getD x 0, r.state.getD y 0) ∉ ns.visited_position_pairs x y then 2
      else 3 := f3p
  have hAiff : (∃ i ∈ r.moved_object_indices,
      r.state.getD i 0 ∉ ns.visited_positions i) ↔
      (∃ i ∈ List.range size, r.state.getD i 0 ∉ ns.visited_positions i) := by
    constructor
    · rintro ⟨i, hi, hmem⟩
      exact ⟨i, List.mem_range.mpr (hvalid i hi), hmem⟩
    · rintro ⟨i, hi, hmem⟩
      by_cases hmov : i ∈ r.moved_object_indices
      · exact ⟨i, hmov, hmem⟩
      · exact absurd (hsingle i (List.mem_range.mp hi) hmov) hmem
  have hBiff : (∃ x y, x < y ∧ y < size ∧
      (x ∈ r.moved_object_indices ∨ y ∈ r.moved_object_indices) ∧
      (r.state.getD x 0, r.state.getD y 0) ∉ ns.visited_position_pairs x y) ↔
      (∃ i ∈ List.range size, ∃ j ∈ (List.range size).drop (i + 1),
        (r.state.getD i 0, r.state.getD j 0) ∉ ns.visited_position_pairs i j) := by
    constructor
    · rintro ⟨x, y, hxy, hys, _, hmem⟩
      exact ⟨x, List.mem_range.mpr (by omega), y,
        (mem_range_drop _ _ _).mpr ⟨by omega, hys⟩, hmem⟩
    · rintro ⟨x, hx, y, hy, hmem⟩
      have hx' := List.mem_range.mp hx
      have hy' := (mem_range_drop _ _ _).mp hy
      by_cases hxm : x ∈ r.moved_object_indices
      · exact ⟨x, y, by omega, by omega, Or.inl hxm, hmem⟩
      · by_cases hym : y ∈ r.moved_object_indices
        · exact ⟨x, y, by omega, by omega, Or.inr hym, hmem⟩
        · exact absurd (hpair y (by omega) x (by omega) hxm hym) hmem
  have hview : noveltyEstimate size ns r =
      ((noveltyEstimate size ns r).1, (noveltyEstimate size ns r).2) := rfl
  rw [hview]
  unfold noveltyEstimateBaseline
  have hAany : ((List.range size).any
      (fun i => decide (r.state.getD i 0 ∉ ns.visited_positions i)) = true) ↔
      (∃ i ∈ List.range size, r.state.getD i 0 ∉ ns.visited_positions i) := by
    simp [List.any_eq_true]
  have hBany : ((List.range size).any (fun i => ((List.range size).drop (i + 1)).any
      (fun j => decide
        ((r.state.getD i 0, r.state.getD j 0) ∉ ns.visited_position_pairs i j))) = true) ↔
      (∃ i ∈ List.range size, ∃ j ∈ (List.range size).drop (i + 1),
        (r.state.getD i 0, r.state.getD j 0) ∉ ns.visited_position_pairs i j) := by
    simp [List.any_eq_true]
  have hvals : (noveltyEstimate size ns r).1 =
      (if (List.range size).any
          (fun i => decide (r.state.getD i 0 ∉ ns.visited_positions i)) then 1
       else if (List.range size).any (fun i => ((List.range size).drop (i + 1)).any
          (fun j => decide
            ((r.state.getD i 0, r.state.getD j 0) ∉ ns.visited_position_pairs i j))) then 2
       else 3) := by
    rw [f3]
    by_cases hA : ∃ i ∈ r.moved_object_indices,
        r.state.getD i 0 ∉ ns.visited_positions i
    · rw [if_pos hA, if_pos (hAany.mpr (hAiff.mp hA))]
    · rw [if_neg hA, if_neg (fun hc => hA (hAiff.mpr (hAany.mp hc)))]
      by_cases hB : ∃ x y, x < y ∧ y < size ∧
          (x ∈ r.moved_object_indices ∨ y ∈ r.moved_object_indices) ∧
          (r.state.getD x 0, r.state.getD y 0) ∉ ns.visited_position_pairs x y
      · rw [if_pos hB, if_pos (hBany.mpr (hBiff.mp hB))]
      · rw [if_neg hB, if_neg (fun hc => hB (hBiff.mpr (hBany.mp hc)))]
  have hstate : (noveltyEstimate size ns r).2 =
      ({ visited_positions := fun i =>
           if i < size then insert (r.state.getD i 0) (ns.visited_positions i)
           else ns.visited_positions i,
         visited_position_pairs := fun i j =>
           if i < j ∧ j < size then
             insert (r.state.getD i 0, r.state.getD j 0) (ns.visited_position_pairs i j)
           else ns.visited_position_pairs i j } : NoveltyState) := by
    refine NoveltyState.ext_fun _ _ ?_ ?_
    · intro x
      show _ = if x < size then insert (r.state.getD x 0) (ns.visited_positions x)
        else ns.visited_positions x
      rw [f1 x]
      by_cases hxm : x ∈ r.moved_object_indices
      · rw [if_pos hxm, if_pos (hvalid x hxm)]
      · rw [if_neg hxm]
        by_cases hxs : x < size
        · rw [if_pos hxs, Finset.insert_eq_self.mpr (hsingle x hxs hxm)]
        · rw [if_neg hxs]
    · intro x y
      show _ = if x < y ∧ y < size then
          insert (r.state.getD x 0, r.state.getD y 0) (ns.visited_position_pairs x y)
        else ns.visited_position_pairs x y
      rw [f2 x y]
      by_cases hc1 : x < y ∧ y < size
      · by_cases hm : x ∈ r.moved_object_indices ∨ y ∈ r.moved_object_indices
        · have hp : x < y ∧ y < size ∧
              (x ∈ r.moved_object_indices ∨ y ∈ r.moved_object_indices) :=
            ⟨hc1.1, hc1.2, hm⟩
          rw [if_pos hp, if_pos hc1]
        · rw [if_neg (fun (hc : _ ∧ _ ∧ (x ∈ r.moved_object_indices ∨
              y ∈ r.moved_object_indices)) => hm hc.2.2), if_pos hc1,
            Finset.insert_eq_self.mpr
              (hpair y hc1.2 x hc1.1 (fun hx => hm (Or.inl hx))
                (fun hy => hm (Or.inr hy)))]
      · rw [if_neg (fun (hc : x < y ∧ y < size ∧ _) => hc1 ⟨hc.1, hc.2.1⟩),
          if_neg hc1]
  rw [hvals, hstate]

/-- **C6, amended.** The optimized novelty estimator (visiting only moved
indices) returns the same sequence of values as the unoptimized baseline
(scanning all indices) on every *consistent* sequence of inputs — one in
which each call's unmoved singleton positions and unmoved index pairs are
already in the visited sets (as holds for the estimate calls issued by the
search, where unmoved objects keep previously-estimated positions). On
arbitrary sequences the claim fails (`noveltyBaseline_differs`). -/
theorem runNovelty_eq_baseline (size : ℕ) :
    ∀ (rs : List RelativeState) (ns : NoveltyState), ConsistentSeq size ns rs →
      runNovelty size ns rs = runNoveltyBaseline size ns rs := by
  intro rs
  induction rs with
  | nil => intro ns _; rfl
  | cons r rs ih =>
    intro ns hcons
    obtain ⟨hcall, hseq⟩ := hcons
    have heq := noveltyEstimate_eq_baseline_call size ns r hcall
    simp only [runNovelty, runNoveltyBaseline]
    rw [← heq]
    exact congrArg _ (ih _ hseq)

/-- Witness for the amended C6 on a concrete consistent sequence. -/
theorem runNovelty_eq_baseline_witness :
    ConsistentSeq 1 ⟨fun _ => ∅, fun _ _ => ∅⟩ [⟨[5], [0]⟩] ∧
    runNovelty 1 ⟨fun _ => ∅, fun _ _ => ∅⟩ [⟨[5], [0]⟩] =
      runNoveltyBaseline 1 ⟨fun _ => ∅, fun _ _ => ∅⟩ [⟨[5], [0]⟩] := by
  have hcons : ConsistentSeq 1 ⟨fun _ => ∅, fun _ _ => ∅⟩ [⟨[5], [0]⟩] := by
    refine ⟨⟨?_, ?_, ?_⟩, trivial⟩
    · intro i hi
      simp only [List.mem_singleton] at hi
      omega
    · intro i hi hmov
      interval_cases i
      · exact absurd (List.mem_singleton.mpr rfl) hmov
    · intro y hy x hx _ _
      omega
  exact ⟨hcons, runNovelty_eq_baseline 1 [⟨[5], [0]⟩] ⟨fun _ => ∅, fun _ _ => ∅⟩ hcons⟩

/-- `FeasibleMovementGraph` from `domain_transition_graph.h`: a map from
start positions to the set of end positions, embedded as an association list
(node, adjacency list). -/
abbrev Graph := List (Position × List Position)

/-- Adjacency lookup `(*graph)[p]` (empty when the node is absent; the C++
`at` on a missing node is an error path never reached by the builder, whose
lookups are guarded by `find`). -/
def graphAdj (g : Graph) (p : Position) : List Position := (g.lookup p).getD []

/-- `graph->find(p) != graph->end()`. -/
def graphHasNode (g : Graph) (p : Position) : Bool := (g.lookup p).isSome

/-- Update (or create) the entry of node `p` with `f` applied to its current
adjacency set; embeds `unordered_map::operator[]` followed by a set
mutation. -/
def alUpdate (g : Graph) (p : Position) (f : List Position → List Position) : Graph :=
  match g with
  | [] => [(p, f [])]
  | (q, l) :: rest => if q = p then (q, f l) :: rest else (q, l) :: alUpdate rest p f

/-- `Transition` from `domain_transition_graph.cc`. -/
structure Transition where
  object_id : ℕ
  start_position : Position
  end_position : Position
  deriving DecidableEq, Repr

/-- `DependentTransitions` from `domain_transition_graph.cc`: a map from
transitions to the transitions that become feasible once the key does. -/
abbrev Deps := List (Transition × List Transition)

/-- `dependent_transitions[t]` (empty when absent). -/
def depsGet (d : Deps) (t : Transition) : List Transition :=
  match d with
  | [] => []
  | (k, l) :: rest => if k = t then l else depsGet rest t

/-- `dependent_transitions.erase(t)`. -/
def depsErase (d : Deps) (t : Transition) : Deps :=
  match d with
  | [] => []
  | (k, l) :: rest => if k = t then rest else (k, l) :: depsErase rest t

/-- `dependent_transitions[t].push_back(v)`. -/
def depsAppend (d : Deps) (t : Transition) (v : Transition) : Deps :=
  match d with
  | [] => [(t, [v])]
  | (k, l) :: rest => if k = t then (k, l ++ [v]) :: rest else (k, l) :: depsAppend rest t v

/-- `add_transition` from `domain_transition_graph.cc`, with its recursion
through the dependent-transitions map turned into an explicit work stack (the
C++ recursion processes a newly satisfied transition's dependents depth-first
before erasing the map entry; since the entry is only read once, erasing it
before the recursive calls is equivalent). `fuel` bounds the cascade; every
theorem below holds for every fuel, and a terminating C++ run corresponds to
a sufficiently large fuel. -/
def addTransitions : ℕ → List Transition → (ℕ → Graph) → Deps → List (ℕ × Position) →
    ((ℕ → Graph) × Deps × List (ℕ × Position))
  | 0, _, graphs, deps, frontier => (graphs, deps, frontier)
  | _ + 1, [], graphs, deps, frontier => (graphs, deps, frontier)
  | fuel + 1, t :: stack, graphs, deps, frontier =>
    let g := graphs t.object_id
    if (graphAdj g t.start_position).contains t.end_position then
      addTransitions fuel stack graphs deps frontier
    else
      let g1 := alUpdate g t.start_position (fun l => l ++ [t.end_position])
      let L := depsGet deps t
      let deps' := depsErase deps t
      if graphHasNode g1 t.end_position then
        addTransitions fuel (L ++ stack) (Function.update graphs t.object_id g1)
          deps' frontier
      else
        addTransitions fuel (L ++ stack)
          (Function.update graphs t.object_id (g1 ++ [(t.end_position, [])]))
          deps' (frontier ++ [(t.object_id, t.end_position)])

/-- The inner loop over `relative_positions` in
`build_feasible_movement_graphs`: for each relative position, if the pusher's
transition is already feasible the object's transition is justified (`true`);
otherwise the object's transition is recorded under the pusher's candidate
transition in the dependent-transitions map. -/
def scanRels (graphs : ℕ → Graph) (pusher : ℕ) (disp pos : Position) (t : Transition) :
    List Position → Deps → Deps × Bool
  | [], deps => (deps, false)
  | rel :: rels, deps =>
    let startp := pos + rel
    let endp := startp + disp
    if (graphAdj (graphs pusher) startp).contains endp then (deps, true)
    else scanRels graphs pusher disp pos t rels (depsAppend deps ⟨pusher, startp, endp⟩ t)

/-- The loop over candidate pushers in `build_feasible_movement_graphs`
(breaking out of both loops once a pusher justifies the transition). -/
def scanPushers (P : PushWorldPuzzle) (graphs : ℕ → Graph) (a : Action) (oid : ℕ)
    (pos disp : Position) (t : Transition) : List ℕ → Deps → Deps × Bool
  | [], deps => (deps, false)
  | u :: us, deps =>
    if u = oid then scanPushers P graphs a oid pos disp t us deps
    else
      match scanRels graphs u disp pos t (P.collisions.dynamic_collisions a u oid) deps with
      | (deps', true) => (deps', true)
      | (deps', false) => scanPushers P graphs a oid pos disp t us deps'

/-- The loop over the four actions for one frontier element of
`build_feasible_movement_graphs`: the agent's moves are justified directly by
its static collisions; another object's move is justified by an
already-feasible pusher transition, else recorded as dependent. -/
def processActions (P : PushWorldPuzzle) (cfuel : ℕ) (oid : ℕ) (pos : Position) :
    List Action → (ℕ → Graph) → Deps → List (ℕ × Position) →
    ((ℕ → Graph) × Deps × List (ℕ × Position))
  | [], graphs, deps, frontier => (graphs, deps, frontier)
  | a :: acts, graphs, deps, frontier =>
    if oid = 0 then
      if (P.collisions.static_collisions a 0).contains pos then
        processActions P cfuel oid pos acts graphs deps frontier
      else
        let res := addTransitions cfuel [⟨0, pos, pos + actionDisplacement a⟩]
          graphs deps frontier
        processActions P cfuel oid pos acts res.1 res.2.1 res.2.2
    else
      if (P.collisions.static_collisions a oid).contains pos then
        processActions P cfuel oid pos acts graphs deps frontier
      else
        match scanPushers P graphs a oid pos (actionDisplacement a)
            ⟨oid, pos, pos + actionDisplacement a⟩ (List.range P.numObjects) deps with
        | (deps', true) =>
          let res := addTransitions cfuel [⟨oid, pos, pos + actionDisplacement a⟩]
            graphs deps' frontier
          processActions P cfuel oid pos acts res.1 res.2.1 res.2.2
        | (deps', false) => processActions P cfuel oid pos acts graphs deps' frontier

/-- The main work-list loop of `build_feasible_movement_graphs`
(`domain_transition_graph.cc`), with explicit fuel for the outer loop: pop a
`(object, position)` frontier element and process all four actions. -/
def buildLoop (P : PushWorldPuzzle) (cfuel : ℕ) :
    ℕ → List (ℕ × Position) → (ℕ → Graph) → Deps → ((ℕ → Graph) × Deps)
  | 0, _, graphs, deps => (graphs, deps)
  | _ + 1, [], graphs, deps => (graphs, deps)
  | fuel + 1, (oid, pos) :: rest, graphs, deps =>
    let res := processActions P cfuel oid pos [0, 1, 2, 3] graphs deps rest
    buildLoop P cfuel fuel res.2.2 res.1 res.2.1

/-- `build_feasible_movement_graphs` from `domain_transition_graph.cc`: one
graph per object, seeded with each object's initial position, expanded by the
work-list loop. `fuel` and `cfuel` bound the two loops, which terminate on
real puzzles because the position space reachable through the collision
tables is finite; every theorem below holds for every fuel. -/
def build_feasible_movement_graphs (P : PushWorldPuzzle) (fuel cfuel : ℕ) : ℕ → Graph :=
  (buildLoop P cfuel fuel
    ((List.range P.numObjects).map (fun i => (i, P.initial_state.getD i 0)))
    (fun i => [(P.initial_state.getD i 0, [])])
    []).1

/-- All edges of a feasible-movement graph connect adjacent positions. -/
def GraphAdjacent (g : Graph) : Prop :=
  ∀ p q, q ∈ graphAdj g p → q - p ∈ ACTION_DISPLACEMENTS

/-- All edges of every object's graph connect adjacent positions. -/
def GraphsAdjacent (graphs : ℕ → Graph) : Prop := ∀ i, GraphAdjacent (graphs i)

/-- A transition connects adjacent positions. -/
def AdjacentT (t : Transition) : Prop :=
  t.end_position - t.start_position ∈ ACTION_DISPLACEMENTS

/-- All transitions stored in the dependent-transitions map connect adjacent
positions. -/
def DepsAdjacent (d : Deps) : Prop := ∀ pr ∈ d, ∀ t ∈ pr.2, AdjacentT t

theorem lookup_pair_cons {β : Type} (k : Position) (b : β)
    (rest : List (Position × β)) (p' : Position) :
    List.lookup p' ((k, b) :: rest) = if p' = k then some b else List.lookup p' rest := by
  by_cases h : p' = k
  · subst h; simp [List.lookup]
  · have hb : (p' == k) = false := beq_eq_false_iff_ne.mpr h
    simp [List.lookup, hb, h]

theorem graphAdj_alUpdate (p : Position) (f : List Position → List Position) :
    ∀ (g : Graph) (p' : Position), graphAdj (alUpdate g p f) p' =
      if p' = p then f (graphAdj g p) else graphAdj g p' := by
  intro g
  induction g with
  | nil =>
    intro p'
    have halu : alUpdate ([] : Graph) p f = [(p, f [])] := rfl
    rw [halu]
    simp only [graphAdj, lookup_pair_cons]
    by_cases h : p' = p
    · rw [if_pos h, if_pos h]
      rfl
    · rw [if_neg h, if_neg h]
  | cons kv rest ih =>
    obtain ⟨k, l⟩ := kv
    intro p'
    have halu : alUpdate ((k, l) :: rest) p f
        = if k = p then (k, f l) :: rest else (k, l) :: alUpdate rest p f := rfl
    by_cases hk : k = p
    · rw [halu, if_pos hk]
      simp only [graphAdj, lookup_pair_cons]
      by_cases h : p' = k
      · rw [if_pos h, if_pos (h.trans hk), if_pos hk.symm]
        rfl
      · have hp : ¬p' = p := fun hc => h (hc.trans hk.symm)
        rw [if_neg h, if_pos hk.symm, if_neg hp, if_neg h]
    · rw [halu, if_neg hk]
      simp only [graphAdj, lookup_pair_cons]
      by_cases h : p' = k
      · have hp : ¬p' = p := fun hc => hk (h ▸ hc)
        rw [if_pos h, if_neg hp, if_pos h]
      · rw [if_neg h, if_neg h]
        have hih := ih p'
        simp only [graphAdj] at hih
        rw [hih]
        by_cases hp : p' = p
        · rw [if_pos hp, if_pos hp]
          have hpk : ¬p = k := fun hc => hk hc.symm
          rw [if_neg hpk]
        · rw [if_neg hp, if_neg hp]

theorem mem_graphAdj_append_node (pe : Position) :
    ∀ (g : Graph) (p' q : Position), q ∈ graphAdj (g ++ [(pe, [])]) p' →
      q ∈ graphAdj g p' := by
  intro g
  induction g with
  | nil =>
    intro p' q h
    simp only [List.nil_append, graphAdj, lookup_pair_cons] at h
    by_cases hp : p' = pe
    · rw [if_pos hp] at h
      simp at h
    · rw [if_neg hp] at h
      simp at h
  | cons kv rest ih =>
    obtain ⟨k, l⟩ := kv
    intro p' q h
    simp only [List.cons_append, graphAdj, lookup_pair_cons] at h ⊢
    by_cases hp : p' = k
    · rw [if_pos hp] at h ⊢
      exact h
    · rw [if_neg hp] at h ⊢
      exact ih p' q h

theorem depsErase_subset (t : Transition) :
    ∀ (d : Deps) (pr : Transition × List Transition), pr ∈ depsErase d t → pr ∈ d := by
  intro d
  induction d with
  | nil => intro pr h; exact absurd h (List.not_mem_nil pr)
  | cons kv rest ih =>
    intro pr h
    simp only [depsErase] at h
    by_cases hk : kv.1 = t
    · rw [if_pos hk] at h
      exact List.mem_cons_of_mem _ h
    · rw [if_neg hk] at h
      rcases List.mem_cons.mp h with rfl | h'
      · exact List.mem_cons_self _ _
      · exact List.mem_cons_of_mem _ (ih pr h')

theorem depsGet_adjacent (t : Transition) :
    ∀ (d : Deps), DepsAdjacent d → ∀ t' ∈ depsGet d t, AdjacentT t' := by
  intro d
  induction d with
  | nil => intro _ t' h; exact absurd h (List.not_mem_nil t')
  | cons kv rest ih =>
    intro hadj t' h
    simp only [depsGet] at h
    by_cases hk : kv.1 = t
    · rw [if_pos hk] at h
      exact hadj kv (List.mem_cons_self _ _) t' h
    · rw [if_neg hk] at h
      exact ih (fun pr hpr => hadj pr (List.mem_cons_of_mem _ hpr)) t' h

theorem depsAppend_adjacent (t v : Transition) (hv : AdjacentT v) :
    ∀ (d : Deps), DepsAdjacent d → DepsAdjacent (depsAppend d t v) := by
  intro d
  induction d with
  | nil =>
    intro _ pr hpr t' ht'
    simp only [depsAppend] at hpr
    rw [List.mem_singleton] at hpr
    subst hpr
    rw [List.mem_singleton] at ht'
    subst ht'
    exact hv
  | cons kv rest ih =>
    intro hadj pr hpr t' ht'
    simp only [depsAppend] at hpr
    by_cases hk : kv.1 = t
    · rw [if_pos hk] at hpr
      rcases List.mem_cons.mp hpr with rfl | hpr'
      · rcases List.mem_append.mp ht' with ht'' | ht''
        · exact hadj kv (List.mem_cons_self _ _) t' ht''
        · rw [List.mem_singleton] at ht''
          subst ht''
          exact hv
      · exact hadj pr (List.mem_cons_of_mem _ hpr') t' ht'
    · rw [if_neg hk] at hpr
      rcases List.mem_cons.mp hpr with rfl | hpr'
      · exact hadj _ (List.mem_cons_self _ _) t' ht'
      · exact ih (fun pr' hpr' => hadj pr' (List.mem_cons_of_mem _ hpr')) pr hpr' t' ht'

theorem addTransitions_adjacent :
    ∀ (fuel : ℕ) (stack : List Transition) (graphs : ℕ → Graph) (deps : Deps)
      (frontier : List (ℕ × Position)),
      GraphsAdjacent graphs → DepsAdjacent deps → (∀ t ∈ stack, AdjacentT t) →
      GraphsAdjacent (addTransitions fuel stack graphs deps frontier).1 ∧
      DepsAdjacent (addTransitions fuel stack graphs deps frontier).2.1 := by
  intro fuel
  induction fuel with
  | zero => intro stack graphs deps frontier hg hd _; exact ⟨hg, hd⟩
  | succ fuel ih =>
    intro stack graphs deps frontier hg hd hs
    cases stack with
    | nil => exact ⟨hg, hd⟩
    | cons t stack =>
      simp only [addTransitions]
      by_cases hc : (graphAdj (graphs t.object_id) t.start_position).contains
          t.end_position = true
      · rw [if_pos hc]
        exact ih stack graphs deps frontier hg hd
          (fun t' ht' => hs t' (List.mem_cons_of_mem _ ht'))
      · rw [if_neg hc]
        have hT : AdjacentT t := hs t (List.mem_cons_self _ _)
        have hg1 : GraphAdjacent (alUpdate (graphs t.object_id) t.start_position
            (fun l => l ++ [t.end_position])) := by
          intro p' q hq
          rw [graphAdj_alUpdate] at hq
          by_cases hp : p' = t.start_position
          · rw [if_pos hp] at hq
            rcases List.mem_append.mp hq with hq' | hq'
            · subst hp
              exact hg t.object_id _ _ hq'
            · rw [List.mem_singleton] at hq'
              subst hq'
              subst hp
              exact hT
          · rw [if_neg hp] at hq
            exact hg t.object_id _ _ hq
        have hstack' : ∀ t' ∈ depsGet deps t ++ stack, AdjacentT t' := by
          intro t' ht'
          rcases List.mem_append.mp ht' with ht'' | ht''
          · exact depsGet_adjacent t deps hd t' ht''
          · exact hs t' (List.mem_cons_of_mem _ ht'')
        have hdeps' : DepsAdjacent (depsErase deps t) :=
          fun pr hpr => hd pr (depsErase_subset t deps pr hpr)
        by_cases hn : graphHasNode (alUpdate (graphs t.object_id) t.start_position
            (fun l => l ++ [t.end_position])) t.end_position = true
        · rw [if_pos hn]
          refine ih _ _ _ _ ?_ hdeps' hstack'
          intro i
          by_cases hi : i = t.object_id
          · subst hi; rw [Function.update_same]; exact hg1
          · rw [Function.update_noteq hi]; exact hg i
        · rw [if_neg hn]
          refine ih _ _ _ _ ?_ hdeps' hstack'
          intro i
          by_cases hi : i = t.object_id
          · subst hi
            rw [Function.update_same]
            intro p' q hq
            exact hg1 p' q (mem_graphAdj_append_node _ _ p' q hq)
          · rw [Function.update_noteq hi]; exact hg i

theorem scanRels_adjacent (graphs : ℕ → Graph) (pusher : ℕ) (disp pos : Position)
    (t : Transition) (ht : AdjacentT t) :
    ∀ (rels : List Position) (deps : Deps), DepsAdjacent deps →
      DepsAdjacent (scanRels graphs pusher disp pos t rels deps).1 := by
  intro rels
  induction rels with
  | nil => intro deps hd; exact hd
  | cons rel rels ih =>
    intro deps hd
    simp only [scanRels]
    by_cases hc : (graphAdj (graphs pusher) (pos + rel)).contains (pos + rel + disp) = true
    · rw [if_pos hc]; exact hd
    · rw [if_neg hc]
      exact ih _ (depsAppend_adjacent _ t ht _ hd)

theorem scanPushers_adjacent (P : PushWorldPuzzle) (graphs : ℕ → Graph) (a : Action)
    (oid : ℕ) (pos disp : Position) (t : Transition) (ht : AdjacentT t) :
    ∀ (us : List ℕ) (deps : Deps), DepsAdjacent deps →
      DepsAdjacent (scanPushers P graphs a oid pos disp t us deps).1 := by
  intro us
  induction us with
  | nil => intro deps hd; exact hd
  | cons u us ih =>
    intro deps hd
    simp only [scanPushers]
    by_cases hu : u = oid
    · rw [if_pos hu]; exact ih deps hd
    · rw [if_neg hu]
      have hrels := scanRels_adjacent graphs u disp pos t ht
        (P.collisions.dynamic_collisions a u oid) deps hd
      cases hsc : scanRels graphs u disp pos t
          (P.collisions.dynamic_collisions a u oid) deps with
      | mk deps' b =>
        rw [hsc] at hrels
        cases b
        · exact ih deps' hrels
        · exact hrels

theorem processActions_adjacent (P : PushWorldPuzzle) (cfuel : ℕ) (oid : ℕ)
    (pos : Position) :
    ∀ (acts : List Action), (∀ a ∈ acts, actionDisplacement a ∈ ACTION_DISPLACEMENTS) →
    ∀ (graphs : ℕ → Graph) (deps : Deps) (frontier : List (ℕ × Position)),
      GraphsAdjacent graphs → DepsAdjacent deps →
      GraphsAdjacent (processActions P cfuel oid pos acts graphs deps frontier).1 ∧
      DepsAdjacent (processActions P cfuel oid pos acts graphs deps frontier).2.1 := by
  intro acts
  induction acts with
  | nil => intro _ graphs deps frontier hg hd; exact ⟨hg, hd⟩
  | cons a acts ih =>
    intro hacts graphs deps frontier hg hd
    have hacts' : ∀ a' ∈ acts, actionDisplacement a' ∈ ACTION_DISPLACEMENTS :=
      fun a' ha' => hacts a' (List.mem_cons_of_mem _ ha')
    have hT : AdjacentT ⟨oid, pos, pos + actionDisplacement a⟩ := by
      show pos + actionDisplacement a - pos ∈ ACTION_DISPLACEMENTS
      rw [add_sub_cancel_left]
      exact hacts a (List.mem_cons_self _ _)
    have hT0 : AdjacentT ⟨0, pos, pos + actionDisplacement a⟩ := hT
    simp only [processActions]
    by_cases h0 : oid = 0
    · rw [if_pos h0]
      by_cases hstat : (P.collisions.static_collisions a 0).contains pos = true
      · rw [if_pos hstat]
        exact ih hacts' graphs deps frontier hg hd
      · rw [if_neg hstat]
        obtain ⟨hg', hd'⟩ := addTransitions_adjacent cfuel
          [⟨0, pos, pos + actionDisplacement a⟩] graphs deps frontier hg hd
          (by intro t' ht'; rw [List.mem_singleton] at ht'; subst ht'; exact hT0)
        exact ih hacts' _ _ _ hg' hd'
    · rw [if_neg h0]
      by_cases hstat : (P.collisions.static_collisions a oid).contains pos = true
      · rw [if_pos hstat]
        exact ih hacts' graphs deps frontier hg hd
      · rw [if_neg hstat]
        have hsp := scanPushers_adjacent P graphs a oid pos (actionDisplacement a)
          ⟨oid, pos, pos + actionDisplacement a⟩ hT (List.range P.numObjects) deps hd
        cases hsc : scanPushers P graphs a oid pos (actionDisplacement a)
            ⟨oid, pos, pos + actionDisplacement a⟩ (List.range P.numObjects) deps with
        | mk deps' b =>
          rw [hsc] at hsp
          cases b
          · exact ih hacts' graphs deps' frontier hg hsp
          · obtain ⟨hg', hd'⟩ := addTransitions_adjacent cfuel
              [⟨oid, pos, pos + actionDisplacement a⟩] graphs deps' frontier hg hsp
              (by intro t' ht'; rw [List.mem_singleton] at ht'; subst ht'; exact hT)
            exact ih hacts' _ _ _ hg' hd'

theorem buildLoop_adjacent (P : PushWorldPuzzle) (cfuel : ℕ) :
    ∀ (fuel : ℕ) (frontier : List (ℕ × Position)) (graphs : ℕ → Graph) (deps : Deps),
      GraphsAdjacent graphs → DepsAdjacent deps →
      GraphsAdjacent (buildLoop P cfuel fuel frontier graphs deps).1 := by
  intro fuel
  induction fuel with
  | zero => intro frontier graphs deps hg _; exact hg
  | succ fuel ih =>
    intro frontier graphs deps hg hd
    cases frontier with
    | nil => exact hg
    | cons pr rest =>
      obtain ⟨oid, pos⟩ := pr
      obtain ⟨hg', hd'⟩ := processActions_adjacent P cfuel oid pos [0, 1, 2, 3]
        (by decide) graphs deps rest hg hd
      exact ih _ _ _ hg' hd'

/-- **C9.** Every edge `p → q` of every per-object feasible-movement graph
produced by `build_feasible_movement_graphs` connects adjacent positions:
`q - p` is one of the four action displacements (encoded `(-1,0)`, `(1,0)`,
`(0,-1)`, `(0,1)`). This covers edges added directly for the agent, edges
justified by an existing pusher edge, and edges added later through the
dependent-transitions map, for every fuel bound (hence for the terminating
C++ run). -/
theorem build_graphs_edges_adjacent (P : PushWorldPuzzle) (fuel cfuel : ℕ)
    (i : ℕ) (p q : Position)
    (h : q ∈ graphAdj (build_feasible_movement_graphs P fuel cfuel i) p) :
    q - p ∈ ACTION_DISPLACEMENTS := by
  have hinit : GraphsAdjacent (fun i => [(P.initial_state.getD i 0, [])]) := by
    intro j p' q' hq'
    simp only [graphAdj, lookup_pair_cons] at hq'
    by_cases hc : p' = P.initial_state.getD j 0
    · rw [if_pos hc] at hq'
      simp at hq'
    · rw [if_neg hc] at hq'
      simp at hq'
  have hdeps : DepsAdjacent ([] : Deps) := fun pr hpr => absurd hpr (List.not_mem_nil pr)
  exact buildLoop_adjacent P cfuel fuel _ _ _ hinit hdeps i p q h

/-- Witness for C9: on the one-object free puzzle, the built graph has the
edge from the initial position one step to the right, and the theorem applies
to it. -/
theorem build_graphs_edges_adjacent_witness :
    (xy_to_position 1 1 + actionDisplacement 1) ∈
      graphAdj (build_feasible_movement_graphs puzzleFree 2 2 0) (xy_to_position 1 1) ∧
    (xy_to_position 1 1 + actionDisplacement 1) - xy_to_position 1 1 ∈
      ACTION_DISPLACEMENTS := by
  have hmem : (xy_to_position 1 1 + actionDisplacement 1) ∈
      graphAdj (build_feasible_movement_graphs puzzleFree 2 2 0) (xy_to_position 1 1) := by
    decide
  exact ⟨hmem, build_graphs_edges_adjacent puzzleFree 2 2 0 _ _ hmem⟩

/-! ### Recursive graph distance heuristic (`recursive_graph_distance.cc`)

Costs are floats in the source, but every operation performed on them stays
inside the non-negative integers extended with `+∞` (`0`, `1`, `+`,
comparisons, `infinity`), embedded as `WithTop ℕ`. -/

/-- `DISPLACEMENTS_TO_ACTIONS.at`, the inverse of `ACTION_DISPLACEMENTS`
(`pushworld_puzzle.h`). `.at` on a missing key throws; embedded as `none`,
only reachable when a movement-graph edge is not an adjacent step. -/
def displacementToAction (d : Position) : Option Action :=
  if d = xy_to_position (-1) 0 then some 0
  else if d = xy_to_position 1 0 then some 1
  else if d = xy_to_position 0 (-1) then some 2
  else if d = xy_to_position 0 1 then some 3
  else none

/-- Extended-cost subtraction. On every executed path of the heuristic the
subtrahend is finite and strictly below the minuend (guarded by the
`>= min_cost` skips), where it agrees with float subtraction. -/
def esub (a b : WithTop ℕ) : WithTop ℕ :=
  WithTop.recTopCoe ⊤
    (fun m => WithTop.recTopCoe ⊤ (fun g => ((m - g : ℕ) : WithTop ℕ)) b) a

/-- The fixed inputs of `RecursiveGraphDistanceHeuristic`: the puzzle, the
per-object feasible movement graphs (`m_movement_graphs`), and the per-object
all-pairs path distances (`m_path_distances.at(i).getDistance`), abstracted
as a function. -/
structure RGDContext where
  puzzle : PushWorldPuzzle
  graphs : ℕ → Graph
  pdist : ℕ → Position → Position → WithTop ℕ

/-- Minimum-insert into the pushing-costs map: an absent key is inserted, a
present key keeps the smaller cost. -/
def costsUpdate : List (Position × WithTop ℕ) → Position → WithTop ℕ →
    List (Position × WithTop ℕ)
  | [], k, v => [(k, v)]
  | (q, w) :: rest, k, v =>
    if q = k then (q, if v < w then v else w) :: rest else (q, w) :: costsUpdate rest k v

/-- `RecursiveGraphDistanceHeuristic::get_pushing_costs`: for every relative
pushing position, if the pusher can feasibly perform the pushing movement,
record for each neighbour of the pusher's current position the cheapest cost
to reach the contact position (`0` for a simultaneous push, graph distance
`+ 1` otherwise, skipped when that distance is infinite). The memoization
cache is semantically transparent and omitted. -/
def get_pushing_costs (ctx : RGDContext) (pusher_id : ℕ) (pusher_position : Position)
    (pushee_id : ℕ) (pushee_start pushee_end : Position) :
    List (Position × WithTop ℕ) :=
  match displacementToAction (pushee_end - pushee_start) with
  | none => []
  | some a =>
    (ctx.puzzle.collisions.dynamic_collisions a pusher_id pushee_id).foldl
      (fun costs rel =>
        if graphHasNode (ctx.graphs pusher_id) (pushee_start + rel) &&
            (graphAdj (ctx.graphs pusher_id) (pushee_start + rel)).contains
              (pushee_start + rel + (pushee_end - pushee_start)) then
          (graphAdj (ctx.graphs pusher_id) pusher_position).foldl
            (fun costs2 pnp =>
              if pushee_start + rel = pusher_position ∧
                  pushee_start + rel + (pushee_end - pushee_start) = pnp then
                costsUpdate costs2 pnp 0
              else if ctx.pdist pusher_id pnp (pushee_start + rel) = ⊤ then costs2
              else costsUpdate costs2 pnp (ctx.pdist pusher_id pnp (pushee_start + rel) + 1))
            costs
        else costs)
      []

/-- `get_recursive_pushing_cost`, structurally recursive on `pushing_depth`.
At depth `0` the pusher loop ranges over ids `[0, 1)`, so only the agent
branch can run and there is no recursion; at positive depth it ranges over
ids `[1, state.size())`, which never hit the agent branch; the single loop
body of the source is specialized accordingly. -/
def grpc (ctx : RGDContext) (state : State) :
    ℕ → ℕ → Position → Position → Finset ℕ → WithTop ℕ → WithTop ℕ
  | 0, object_id, current, effect, skipped, ub =>
    if 0 ∈ insert object_id skipped then ub
    else
      (get_pushing_costs ctx 0 (state.getD 0 0) object_id current effect).foldl
        (fun mc pair =>
          if mc ≤ pair.2 then mc
          else if pair.2 + 1 < mc then pair.2 + 1 else mc) ub
  | depth + 1, object_id, current, effect, skipped, ub =>
    ((List.range state.length).drop 1).foldl
      (fun mc pusher =>
        if pusher ∈ insert object_id skipped then mc
        else
          (get_pushing_costs ctx pusher (state.getD pusher 0) object_id current
              effect).foldl
            (fun mc2 pair =>
              if mc2 ≤ pair.2 then mc2
              else pair.2 +
                grpc ctx state depth pusher (state.getD pusher 0) pair.1
                  (insert object_id skipped) (esub mc2 pair.2)) mc) ub

/-- `RecursiveGraphDistanceHeuristic::get_goal_cost`: `0` if the object is at
its goal, otherwise the minimum over its feasible movements of the remaining
graph distance plus the recursive pushing cost of the first movement, with
upper-bound pruning. -/
def get_goal_cost (ctx : RGDContext) (state : State) (object_id : ℕ)
    (goal_position : Position) (pushing_depth : ℕ) : WithTop ℕ :=
  if goal_position = state.getD object_id 0 then 0
  else
    (graphAdj (ctx.graphs object_id) (state.getD object_id 0)).foldl
      (fun mc effect =>
        if mc ≤ ctx.pdist object_id effect goal_position then mc
        else ctx.pdist object_id effect goal_position +
          grpc ctx state pushing_depth object_id (state.getD object_id 0) effect ∅
            (esub mc (ctx.pdist object_id effect goal_position))) ⊤

/-- The depth loop of `get_fewest_tools_goal_cost`: return the first finite
cost over the given pushing depths, `+∞` if none is finite. -/
def gftAux (ctx : RGDContext) (state : State) (object_id : ℕ)
    (goal_position : Position) : List ℕ → WithTop ℕ
  | [] => ⊤
  | d :: ds =>
    if get_goal_cost ctx state object_id goal_position d = ⊤ then
      gftAux ctx state object_id goal_position ds
    else get_goal_cost ctx state object_id goal_position d

/-- `RecursiveGraphDistanceHeuristic::get_fewest_tools_goal_cost`: try the
pushing depths `0, …, state.size() - 2` in order. -/
def get_fewest_tools_goal_cost (ctx : RGDContext) (state : State) (object_id : ℕ)
    (goal_position : Position) : WithTop ℕ :=
  gftAux ctx state object_id goal_position (List.range (state.length - 1))

/-- The goal loop of `RecursiveGraphDistanceHeuristic::estimate_cost_to_goal`:
accumulate per-goal costs (goal index `k` constrains object `k + 1`), breaking
early as soon as the sum is infinite. -/
def estimateAux (ctx : RGDContext) (fewest_tools : Bool) (state : State) :
    List ℕ → WithTop ℕ → WithTop ℕ
  | [], cost => cost
  | k :: ks, cost =>
    if cost +
        (if fewest_tools then
          get_fewest_tools_goal_cost ctx state (k + 1) (ctx.puzzle.goal.getD k 0)
        else get_goal_cost ctx state (k + 1) (ctx.puzzle.goal.getD k 0)
          (state.length - 2)) = ⊤ then
      cost +
        (if fewest_tools then
          get_fewest_tools_goal_cost ctx state (k + 1) (ctx.puzzle.goal.getD k 0)
        else get_goal_cost ctx state (k + 1) (ctx.puzzle.goal.getD k 0)
          (state.length - 2))
    else
      estimateAux ctx fewest_tools state ks
        (cost +
          (if fewest_tools then
            get_fewest_tools_goal_cost ctx state (k + 1) (ctx.puzzle.goal.getD k 0)
          else get_goal_cost ctx state (k + 1) (ctx.puzzle.goal.getD k 0)
            (state.length - 2)))

/-- `RecursiveGraphDistanceHeuristic::estimate_cost_to_goal`. -/
def estimate_cost_to_goal (ctx : RGDContext) (fewest_tools : Bool)
    (state : State) : WithTop ℕ :=
  estimateAux ctx fewest_tools state (List.range ctx.puzzle.goal.length) 0

/-- Existence of a feasible push chain behind `get_recursive_pushing_cost`:
at depth `0`, the agent (if not skipped) has a finite-cost way to reach a
contact position and push; at depth `d + 1`, some non-agent pusher not yet
used has a finite-cost way to reach a contact position and push, and is
itself pushable within depth `d`. -/
def pushChainB (ctx : RGDContext) (state : State) :
    ℕ → ℕ → Position → Position → Finset ℕ → Bool
  | 0, object_id, current, effect, skipped =>
    decide (0 ∉ insert object_id skipped) &&
      (get_pushing_costs ctx 0 (state.getD 0 0) object_id current effect).any
        (fun pair => decide (pair.2 ≠ ⊤))
  | depth + 1, object_id, current, effect, skipped =>
    ((List.range state.length).drop 1).any
      (fun pusher =>
        decide (pusher ∉ insert object_id skipped) &&
          (get_pushing_costs ctx pusher (state.getD pusher 0) object_id current
              effect).any
            (fun pair => decide (pair.2 ≠ ⊤) &&
              pushChainB ctx state depth pusher (state.getD pusher 0) pair.1
                (insert object_id skipped)))

/-- The goal of `object_id` is solvable at a given pushing depth: the object
is already at its goal position, or one of its feasible movements has finite
remaining graph distance to the goal and is realizable by a push chain of
that depth. -/
def goalSolvableB (ctx : RGDContext) (state : State) (object_id : ℕ)
    (goal_position : Position) (pushing_depth : ℕ) : Bool :=
  decide (goal_position = state.getD object_id 0) ||
    (graphAdj (ctx.graphs object_id) (state.getD object_id 0)).any
      (fun effect => decide (ctx.pdist object_id effect goal_position ≠ ⊤) &&
        pushChainB ctx state pushing_depth object_id (state.getD object_id 0)
          effect ∅)

theorem esub_top (b : WithTop ℕ) : esub ⊤ b = ⊤ := rfl

theorem add_esub {a b : WithTop ℕ} (h : a < b) : a + esub b a = b := by
  induction b using WithTop.recTopCoe with
  | top =>
    induction a using WithTop.recTopCoe with
    | top => exact absurd h (lt_irrefl _)
    | coe m =>
      show (m : WithTop ℕ) + ⊤ = ⊤
      exact WithTop.add_top _
  | coe n =>
    induction a using WithTop.recTopCoe with
    | top => exact absurd h (by simp)
    | coe m =>
      have hmn : m < n := by exact_mod_cast h
      show (m : WithTop ℕ) + ((n - m : ℕ) : WithTop ℕ) = (n : WithTop ℕ)
      exact_mod_cast (by omega : m + (n - m) = n)

theorem foldl_mono_le {α : Type} (f : WithTop ℕ → α → WithTop ℕ)
    (hf : ∀ mc x, f mc x ≤ mc) :
    ∀ (l : List α) (ub : WithTop ℕ), l.foldl f ub ≤ ub := by
  intro l
  induction l with
  | nil => intro ub; exact le_refl ub
  | cons x xs ih => intro ub; exact le_trans (ih (f ub x)) (hf ub x)

theorem foldl_ne_top {α : Type} (f : WithTop ℕ → α → WithTop ℕ)
    (hf : ∀ mc x, mc ≠ ⊤ → f mc x ≠ ⊤) :
    ∀ (l : List α) (mc : WithTop ℕ), mc ≠ ⊤ → l.foldl f mc ≠ ⊤ := by
  intro l
  induction l with
  | nil => intro mc h; exact h
  | cons x xs ih => intro mc h; exact ih (f mc x) (hf mc x h)

theorem foldl_top_iff {α : Type} (f : WithTop ℕ → α → WithTop ℕ) (c : α → Bool)
    (hstep : ∀ x, f ⊤ x = ⊤ ↔ c x = false)
    (hfin : ∀ mc x, mc ≠ ⊤ → f mc x ≠ ⊤) :
    ∀ l : List α, (l.foldl f ⊤ = ⊤ ↔ l.any c = false) := by
  intro l
  induction l with
  | nil => simp
  | cons x xs ih =>
    show (xs.foldl f (f ⊤ x) = ⊤ ↔ (c x || xs.any c) = false)
    by_cases hc : c x = false
    · rw [(hstep x).mpr hc, ih, hc]
      simp
    · have hct : c x = true := by
        revert hc; cases c x <;> simp
      have hne : f ⊤ x ≠ ⊤ := by
        intro he
        rw [(hstep x).mp he] at hct
        exact Bool.false_ne_true hct
      have : xs.foldl f (f ⊤ x) ≠ ⊤ := foldl_ne_top f hfin xs _ hne
      simp [this, hct]

theorem grpc_le_ub (ctx : RGDContext) (state : State) :
    ∀ (depth oid : ℕ) (cur eff : Position) (sk : Finset ℕ) (ub : WithTop ℕ),
      grpc ctx state depth oid cur eff sk ub ≤ ub := by
  intro depth
  induction depth with
  | zero =>
    intro oid cur eff sk ub
    simp only [grpc]
    by_cases h0 : 0 ∈ insert oid sk
    · rw [if_pos h0]
    · rw [if_neg h0]
      refine foldl_mono_le _ ?_ _ ub
      intro mc pair
      by_cases hle : mc ≤ pair.2
      · rw [if_pos hle]
      · rw [if_neg hle]
        by_cases hlt : pair.2 + 1 < mc
        · rw [if_pos hlt]; exact le_of_lt hlt
        · rw [if_neg hlt]
  | succ d ih =>
    intro oid cur eff sk ub
    simp only [grpc]
    refine foldl_mono_le _ ?_ _ ub
    intro mc pusher
    by_cases hsk : pusher ∈ insert oid sk
    · rw [if_pos hsk]
    · rw [if_neg hsk]
      refine foldl_mono_le _ ?_ _ mc
      intro mc2 pair
      by_cases hle : mc2 ≤ pair.2
      · rw [if_pos hle]
      · rw [if_neg hle]
        calc pair.2 + grpc ctx state d pusher (state.getD pusher 0) pair.1
              (insert oid sk) (esub mc2 pair.2)
            ≤ pair.2 + esub mc2 pair.2 := add_le_add_left (ih _ _ _ _ _) _
          _ = mc2 := add_esub (not_le.mp hle)

theorem grpc_top_iff (ctx : RGDContext) (state : State) :
    ∀ (depth oid : ℕ) (cur eff : Position) (sk : Finset ℕ),
      (grpc ctx state depth oid cur eff sk ⊤ = ⊤ ↔
        pushChainB ctx state depth oid cur eff sk = false) := by
  intro depth
  induction depth with
  | zero =>
    intro oid cur eff sk
    simp only [grpc, pushChainB]
    by_cases h0 : 0 ∈ insert oid sk
    · rw [if_pos h0]
      simp [h0]
    · rw [if_neg h0]
      rw [foldl_top_iff _ (fun pair : Position × WithTop ℕ => decide (pair.2 ≠ ⊤))
        ?_ ?_ _]
      · simp [h0]
      · intro pair
        by_cases hp : pair.2 = ⊤
        · rw [if_pos (le_of_eq hp.symm)]
          simp [hp]
        · have h1 : ¬(⊤ : WithTop ℕ) ≤ pair.2 := fun hc => hp (top_le_iff.mp hc)
          have h2 : pair.2 + 1 < ⊤ :=
            lt_top_iff_ne_top.mpr (by simp [WithTop.add_eq_top, hp])
          rw [if_neg h1, if_pos h2]
          simp [WithTop.add_eq_top, hp]
      · intro mc pair hmc
        by_cases hle : mc ≤ pair.2
        · rw [if_pos hle]; exact hmc
        · rw [if_neg hle]
          by_cases hlt : pair.2 + 1 < mc
          · rw [if_pos hlt]
            exact ne_top_of_lt hlt
          · rw [if_neg hlt]; exact hmc
  | succ d ih =>
    intro oid cur eff sk
    simp only [grpc, pushChainB]
    refine foldl_top_iff _
      (fun pusher => decide (pusher ∉ insert oid sk) &&
        (get_pushing_costs ctx pusher (state.getD pusher 0) oid cur eff).any
          (fun pair => decide (pair.2 ≠ ⊤) &&
            pushChainB ctx state d pusher (state.getD pusher 0) pair.1
              (insert oid sk))) ?_ ?_ _
    · intro pusher
      by_cases hsk : pusher ∈ insert oid sk
      · rw [if_pos hsk]
        simp [hsk]
      · rw [if_neg hsk]
        rw [foldl_top_iff _
          (fun pair : Position × WithTop ℕ => decide (pair.2 ≠ ⊤) &&
            pushChainB ctx state d pusher (state.getD pusher 0) pair.1
              (insert oid sk)) ?_ ?_ _]
        · simp [hsk]
        · intro pair
          by_cases hp : pair.2 = ⊤
          · rw [if_pos (le_of_eq hp.symm)]
            simp [hp]
          · have h1 : ¬(⊤ : WithTop ℕ) ≤ pair.2 := fun hc => hp (top_le_iff.mp hc)
            rw [if_neg h1, esub_top, WithTop.add_eq_top]
            simp only [hp, false_or]
            rw [ih pusher (state.getD pusher 0) pair.1 (insert oid sk)]
            simp [hp]
        · intro mc2 pair hmc2
          by_cases hle : mc2 ≤ pair.2
          · rw [if_pos hle]; exact hmc2
          · rw [if_neg hle]
            refine ne_top_of_le_ne_top hmc2 ?_
            calc pair.2 + grpc ctx state d pusher (state.getD pusher 0) pair.1
                  (insert oid sk) (esub mc2 pair.2)
                ≤ pair.2 + esub mc2 pair.2 :=
                  add_le_add_left (grpc_le_ub ctx state _ _ _ _ _ _) _
              _ = mc2 := add_esub (not_le.mp hle)
    · intro mc pusher hmc
      by_cases hsk : pusher ∈ insert oid sk
      · rw [if_pos hsk]; exact hmc
      · rw [if_neg hsk]
        refine ne_top_of_le_ne_top hmc ?_
        refine foldl_mono_le _ ?_ _ mc
        intro mc2 pair
        by_cases hle : mc2 ≤ pair.2
        · rw [if_pos hle]
        · rw [if_neg hle]
          calc pair.2 + grpc ctx state d pusher (state.getD pusher 0) pair.1
                (insert oid sk) (esub mc2 pair.2)
              ≤ pair.2 + esub mc2 pair.2 :=
                add_le_add_left (grpc_le_ub ctx state _ _ _ _ _ _) _
            _ = mc2 := add_esub (not_le.mp hle)

theorem get_goal_cost_top_iff (ctx : RGDContext) (state : State) (oid : ℕ)
    (gp : Position) (depth : ℕ) :
    (get_goal_cost ctx state oid gp depth = ⊤ ↔
      goalSolvableB ctx state oid gp depth = false) := by
  simp only [get_goal_cost, goalSolvableB]
  by_cases hg : gp = state.getD oid 0
  · rw [if_pos hg]
    constructor
    · intro h
      exact absurd h (by simp)
    · intro h
      simp [hg] at h
  · rw [if_neg hg]
    rw [foldl_top_iff _
      (fun effect => decide (ctx.pdist oid effect gp ≠ ⊤) &&
        pushChainB ctx state depth oid (state.getD oid 0) effect ∅) ?_ ?_ _]
    · simp [hg]
      exact fun _ => by simpa using hg
    · intro eff
      by_cases hp : ctx.pdist oid eff gp = ⊤
      · rw [if_pos (le_of_eq hp.symm)]
        simp [hp]
      · have h1 : ¬(⊤ : WithTop ℕ) ≤ ctx.pdist oid eff gp :=
          fun hc => hp (top_le_iff.mp hc)
        rw [if_neg h1, esub_top, WithTop.add_eq_top]
        simp only [hp, false_or]
        rw [grpc_top_iff ctx state depth oid (state.getD oid 0) eff ∅]
        simp [hp]
    · intro mc eff hmc
      by_cases hle : mc ≤ ctx.pdist oid eff gp
      · rw [if_pos hle]; exact hmc
      · rw [if_neg hle]
        refine ne_top_of_le_ne_top hmc ?_
        calc ctx.pdist oid eff gp + grpc ctx state depth oid (state.getD oid 0) eff ∅
              (esub mc (ctx.pdist oid eff gp))
            ≤ ctx.pdist oid eff gp + esub mc (ctx.pdist oid eff gp) :=
              add_le_add_left (grpc_le_ub ctx state _ _ _ _ _ _) _
          _ = mc := add_esub (not_le.mp hle)

theorem gftAux_top_iff (ctx : RGDContext) (state : State) (oid : ℕ)
    (gp : Position) :
    ∀ ds : List ℕ,
      (gftAux ctx state oid gp ds = ⊤ ↔
        ∀ d ∈ ds, goalSolvableB ctx state oid gp d = false) := by
  intro ds
  induction ds with
  | nil => simp [gftAux]
  | cons d ds ih =>
    simp only [gftAux]
    by_cases hc : get_goal_cost ctx state oid gp d = ⊤
    · rw [if_pos hc, ih]
      have hd := (get_goal_cost_top_iff ctx state oid gp d).mp hc
      simp [hd]
    · rw [if_neg hc]
      constructor
      · intro h; exact absurd h hc
      · intro h
        exact absurd ((get_goal_cost_top_iff ctx state oid gp d).mpr
          (h d (List.mem_cons_self _ _))) hc

theorem estimateAux_top_iff (ctx : RGDContext) (ft : Bool) (state : State) :
    ∀ (ks : List ℕ) (cost : WithTop ℕ), cost ≠ ⊤ →
      (estimateAux ctx ft state ks cost = ⊤ ↔
        ∃ k ∈ ks,
          (if ft then
            get_fewest_tools_goal_cost ctx state (k + 1) (ctx.puzzle.goal.getD k 0)
          else get_goal_cost ctx state (k + 1) (ctx.puzzle.goal.getD k 0)
            (state.length - 2)) = ⊤) := by
  intro ks
  induction ks with
  | nil =>
    intro cost hc
    simp [estimateAux, hc]
  | cons k ks ih =>
    intro cost hc
    simp only [estimateAux]
    by_cases ht : cost +
        (if ft then
          get_fewest_tools_goal_cost ctx state (k + 1) (ctx.puzzle.goal.getD k 0)
        else get_goal_cost ctx state (k + 1) (ctx.puzzle.goal.getD k 0)
          (state.length - 2)) = ⊤
    · rw [if_pos ht]
      have hX : (if ft then
          get_fewest_tools_goal_cost ctx state (k + 1) (ctx.puzzle.goal.getD k 0)
        else get_goal_cost ctx state (k + 1) (ctx.puzzle.goal.getD k 0)
          (state.length - 2)) = ⊤ := by
        rcases WithTop.add_eq_top.mp ht with h | h
        · exact absurd h hc
        · exact h
      exact ⟨fun _ => ⟨k, List.mem_cons_self _ _, hX⟩, fun _ => ht⟩
    · rw [if_neg ht, ih _ ht]
      have hX : (if ft then
          get_fewest_tools_goal_cost ctx state (k + 1) (ctx.puzzle.goal.getD k 0)
        else get_goal_cost ctx state (k + 1) (ctx.puzzle.goal.getD k 0)
          (state.length - 2)) ≠ ⊤ := by
        intro h
        exact ht (by rw [h]; exact WithTop.add_top cost)
      constructor
      · rintro ⟨k', hk', h⟩
        exact ⟨k', List.mem_cons_of_mem _ hk', h⟩
      · rintro ⟨k', hk', h⟩
        rcases List.mem_cons.mp hk' with rfl | hk''
        · exact absurd h hX
        · exact ⟨k', hk'', h⟩

/-- A two-object puzzle for evaluating the RGD heuristic: the agent at
`(0,0)`, a box at `(1,0)`, goal `(2,0)` for the box, and the box pushable to
the right from the left. -/
def puzzlePush : PushWorldPuzzle where
  initial_state := [xy_to_position 0 0, xy_to_position 1 0]
  goal := [xy_to_position 2 0]
  collisions :=
    { static_collisions := fun _ _ => []
      dynamic_collisions := fun a i j =>
        if a = 1 ∧ i = 0 ∧ j = 1 then [xy_to_position (-1) 0] else [] }

/-- The initial state of `puzzlePush`. -/
def statePush : State := puzzlePush.initial_state

/-- A concrete RGD context over `puzzlePush` with one-step movement graphs
and the discrete path-distance function. -/
def ctxPush : RGDContext where
  puzzle := puzzlePush
  graphs := fun i =>
    if i = 0 then [(xy_to_position 0 0, [xy_to_position 1 0])]
    else [(xy_to_position 1 0, [xy_to_position 2 0])]
  pdist := fun _ a b => if a = b then 0 else ⊤

/-- **C4.** `estimate_cost_to_goal` of the recursive graph distance heuristic
(in the `fewest_tools` mode used by `run_planner.cc`) returns a non-negative
integer cost or `+∞`; it returns `+∞` exactly when some goal object cannot be
brought to its goal position by any feasible push chain (at any pushing depth
the heuristic explores, i.e. up to `state.size() - 2`); and a single infinite
per-goal cost forces the whole estimate to `+∞`, short-circuiting the sum
over the remaining goals. -/
theorem rgd_estimate_characterization (ctx : RGDContext) (state : State) :
    (estimate_cost_to_goal ctx true state = ⊤ ∨
      ∃ m : ℕ, estimate_cost_to_goal ctx true state = (m : WithTop ℕ)) ∧
    (estimate_cost_to_goal ctx true state = ⊤ ↔
      ¬ (∀ k ∈ List.range ctx.puzzle.goal.length,
          ∃ d ∈ List.range (state.length - 1),
            goalSolvableB ctx state (k + 1) (ctx.puzzle.goal.getD k 0) d = true)) ∧
    (∀ k ∈ List.range ctx.puzzle.goal.length,
      get_fewest_tools_goal_cost ctx state (k + 1) (ctx.puzzle.goal.getD k 0) = ⊤ →
      estimate_cost_to_goal ctx true state = ⊤) := by
  have hbase : estimate_cost_to_goal ctx true state =
      estimateAux ctx true state (List.range ctx.puzzle.goal.length) 0 := rfl
  have hiff := estimateAux_top_iff ctx true state
    (List.range ctx.puzzle.goal.length) 0 (by simp)
  have hif : ∀ k : ℕ,
      (if true then
        get_fewest_tools_goal_cost ctx state (k + 1) (ctx.puzzle.goal.getD k 0)
      else get_goal_cost ctx state (k + 1) (ctx.puzzle.goal.getD k 0)
        (state.length - 2)) =
      get_fewest_tools_goal_cost ctx state (k + 1) (ctx.puzzle.goal.getD k 0) :=
    fun _ => rfl
  simp only [hif] at hiff
  refine ⟨?_, ?_, ?_⟩
  · by_cases h : estimate_cost_to_goal ctx true state = ⊤
    · exact Or.inl h
    · rcases WithTop.ne_top_iff_exists.mp h with ⟨m, hm⟩
      exact Or.inr ⟨m, hm.symm⟩
  · rw [hbase, hiff]
    constructor
    · rintro ⟨k, hk, hkt⟩ hall
      rcases hall k hk with ⟨d, hd, hsolv⟩
      have hfd := (gftAux_top_iff ctx state (k + 1) (ctx.puzzle.goal.getD k 0)
        (List.range (state.length - 1))).mp hkt d hd
      rw [hsolv] at hfd
      exact Bool.noConfusion hfd
    · intro hnall
      by_contra hne
      apply hnall
      intro k hk
      by_contra hnd
      apply hne
      refine ⟨k, hk, ?_⟩
      refine (gftAux_top_iff ctx state (k + 1) (ctx.puzzle.goal.getD k 0)
        (List.range (state.length - 1))).mpr ?_
      intro d hd
      by_contra hb
      apply hnd
      refine ⟨d, hd, ?_⟩
      revert hb
      cases goalSolvableB ctx state (k + 1) (ctx.puzzle.goal.getD k 0) d <;> simp
  · intro k hk hgt
    rw [hbase, hiff]
    exact ⟨k, hk, hgt⟩

/-- Witness for C4: on `puzzlePush` the estimate is finite, and indeed every
goal is solvable by a push chain at some explored depth (here: the agent
pushes the box directly at depth 0). -/
theorem rgd_estimate_characterization_witness :
    estimate_cost_to_goal ctxPush true statePush ≠ ⊤ ∧
    (∀ k ∈ List.range ctxPush.puzzle.goal.length,
      ∃ d ∈ List.range (statePush.length - 1),
        goalSolvableB ctxPush statePush (k + 1) (ctxPush.puzzle.goal.getD k 0) d
          = true) :=
  ⟨fun h => ((rgd_estimate_characterization ctxPush statePush).2.1.mp h) (by decide),
   by decide⟩

/-- **C7.** For all `x, y` with `0 ≤ x, y < 10000`, `position_to_xy` recovers
`(x, y)` from `xy_to_position x y`; and the encoding is additive:
`xy_to_position a b + xy_to_position c d = xy_to_position (a+c) (b+d)` for all
in-range `a, b` and possibly-negative displacements `c, d` with `a+c`, `b+d`
in range. -/
theorem position_roundtrip_and_additive :
    (∀ x y : Int, 0 ≤ x → x < 10000 → 0 ≤ y → y < 10000 →
      position_to_xy (xy_to_position x y) = (x, y)) ∧
    (∀ a b c d : Int, 0 ≤ a → a < 10000 → 0 ≤ b → b < 10000 →
      0 ≤ a + c → a + c < 10000 → 0 ≤ b + d → b + d < 10000 →
      xy_to_position a b + xy_to_position c d = xy_to_position (a + c) (b + d)) := by
  constructor
  · intro x y hx hx' hy hy'
    simp only [position_to_xy, xy_to_position, POSITION_LIMIT, Prod.mk.injEq]
    omega
  · intro a b c d _ _ _ _ _ _ _ _
    simp only [xy_to_position, POSITION_LIMIT]
    ring

/-- Witness for C7 at a concrete input. -/
theorem position_roundtrip_and_additive_witness :
    position_to_xy (xy_to_position 3 4) = (3, 4) ∧
    xy_to_position 3 4 + xy_to_position (-1) 2 = xy_to_position 2 6 := by
  refine ⟨position_roundtrip_and_additive.1 3 4 ?_ ?_ ?_ ?_,
          position_roundtrip_and_additive.2 3 4 (-1) 2 ?_ ?_ ?_ ?_ ?_ ?_ ?_ ?_⟩ <;> decide

/-- **C8, counterexample.** The claim states that the loader accepts every
board whose computed width and height (perimeter included) are each *at most*
10000. A board of 1 row and 9998 columns has computed width exactly 10000 and
height 3, both at most 10000, yet the loader's check
`width >= POSITION_LIMIT || height >= POSITION_LIMIT` rejects it. -/
theorem loaderAcceptsSize_not_at_limit :
    (loaderWidth 9998 : Int) ≤ POSITION_LIMIT ∧ (loaderHeight 1 : Int) ≤ POSITION_LIMIT ∧
    loaderAcceptsSize 1 9998 = false := by decide

/-- **C8, amended.** The `.pwp` loader's size check accepts a board exactly
when the computed width and height (including the implicit perimeter walls)
are each *strictly less than* 10000, and raises the invalid-input error
exactly when the width or the height reaches or exceeds `POSITION_LIMIT`. -/
theorem loaderAcceptsSize_iff (rows cols : ℕ) :
    loaderAcceptsSize rows cols = true ↔
      (loaderWidth cols : Int) < POSITION_LIMIT ∧ (loaderHeight rows : Int) < POSITION_LIMIT := by
  simp only [loaderAcceptsSize, Bool.not_eq_true', Bool.or_eq_false_iff,
    decide_eq_false_iff_not, not_le]

end PushWorld
